import Mathlib

/-!
# s3-list-metadata: the listing / lookup pipeline

A shallow embedding of `s3-list-metadata.go`.

* Sequential code (`reportAWSError`, the page callback, the worker's loop body,
  the argument handling at the top of `main`) is embedded as pure functions
  that return what the code prints and what it does next.
* The concurrent part (`go listToChannelAndClose`, the `workerCount` goroutines
  running `workerFunc`, `wg.Add` / `wg.Done` / `wg.Wait`) is embedded as a step
  function on an explicit state: one step is one statement of one goroutine, a
  schedule is a list of goroutine choices, and a blocked statement has no step.
-/

namespace S3List

/-! ## Data model -/

/-- A Go `error` value: `awsErr` says whether the dynamic type implements
`awserr.Error`, `text` is what its `Error()` method returns. -/
structure GoError where
  awsErr : Bool
  text : String
deriving DecidableEq, Repr

/-- A Go `map[string]*string` as the program sees it. `entries` are the
key/value pairs in the order they were inserted; `order` is the sequence in
which a `range` loop visits them. The Go language leaves that sequence
unspecified: it is some rearrangement of the entries (`GoMap.WF`). -/
structure GoMap where
  entries : List (String × String)
  order : List (String × String)
deriving DecidableEq, Repr

/-- Go's `len(m)`. -/
def GoMap.len (m : GoMap) : Nat := m.entries.length

/-- Well-formed map: distinct keys, and `range` visits every entry once. -/
def GoMap.WF (m : GoMap) : Prop :=
  (m.entries.map Prod.fst).Nodup ∧ m.order.Perm m.entries

/-- The part of `s3.HeadObjectOutput` the program reads. -/
structure HeadObjectOutput where
  Metadata : GoMap
deriving DecidableEq, Repr

/-- The lookup capability `svc.HeadObject`: for a key it returns the output
value (the SDK always hands back a non-nil pointer) together with the error,
`none` standing for `nil`. -/
abbrev Lookup := String → HeadObjectOutput × Option GoError

/-- One page `*s3.ListObjectsOutput`, reduced to the field `Key` of each object
of its `Contents`. The field is a `*string`: `none` stands for a nil pointer,
an object listed without a key. -/
structure ListObjectsOutput where
  Contents : List (Option String)
deriving DecidableEq, Repr

/-- What the listing capability delivers in one run: the pages it hands to the
callback, and the error that ended the pagination (`none` when the listing
ended normally). -/
structure Listing where
  pages : List ListObjectsOutput
  err : Option GoError
deriving DecidableEq, Repr

/-- The objects of the delivered pages, page after page. -/
def Listing.objects (l : Listing) : List (Option String) :=
  (l.pages.map ListObjectsOutput.Contents).flatten

/-- The keys of the delivered pages, page after page. -/
def Listing.keys (l : Listing) : List String :=
  l.objects.filterMap id

/-- Whether every listed object carries a key. -/
def Listing.keyed (l : Listing) : Bool :=
  l.objects.all Option.isSome

/-- The keys that come before the first object without a key. -/
def keysBeforeNil : List (Option String) → List String
  | [] => []
  | some k :: rest => k :: keysBeforeNil rest
  | none :: _ => []

/-- The listed keys up to the first object without a key: all of them when
every object carries one. -/
def Listing.sentKeys (l : Listing) : List String :=
  keysBeforeNil l.objects

/-- A line written to standard output, tagged with the call site that wrote it:
`report` is the `fmt.Println` inside `reportAWSError`, `result` is the
`fmt.Println(k, ...)` of the worker. -/
inductive Printed
  | report (text : String)
  | result (line : String)
deriving DecidableEq, Repr

/-- The result line carried by a printed line, if it is one. -/
def Printed.result? : Printed → Option String
  | .report _ => none
  | .result l => some l

/-! ## Sequential code -/

/-- `reportAWSError` (lines 17-25): prints `Error()` of a non-nil error, on
either branch of the type assertion, and nothing for `nil`. -/
def reportAWSError (err : Option GoError) : List Printed :=
  match err with
  | none => []
  | some e => if e.awsErr then [Printed.report e.text] else [Printed.report e.text]

/-- `fmt.Sprintf("%s=%s", k, *v)` (line 106). -/
def formatEntry (kv : String × String) : String := kv.1 ++ "=" ++ kv.2

/-- Lines 104-107: the `values` slice built by ranging over the map. -/
def metadataValues (m : GoMap) : List String :=
  m.order.foldl (fun values kv => values ++ [formatEntry kv]) []

/-- The text printed by `fmt.Println(k, strings.Join(values, ","))` (line 108):
`Println` puts one space between its two operands. -/
def formatLine (k : String) (m : GoMap) : String :=
  k ++ " " ++ String.intercalate "," (metadataValues m)

/-- Lines 103-109: what the worker prints for key `k` once the lookup has
returned `res`. -/
def emitLines (k : String) (res : HeadObjectOutput) : List Printed :=
  if res.Metadata.len > 0 then [Printed.result (formatLine k res.Metadata)] else []

/-- Lines 96-109, one pass of the worker's loop body for key `k`: everything it
prints, in order. -/
def workerBody (lookup : Lookup) (k : String) : List Printed :=
  let r := lookup k
  reportAWSError r.2 ++ emitLines k r.1

/-- What one statement of `listToChannelAndClose` does to the outside world.
`panic` is the nil pointer dereference of `*v.Key` (line 33) on an object
without a key: the goroutine does not go on, and the process dies. -/
inductive EnumOp
  | send (key : String)
  | println (p : Printed)
  | close
  | panic
deriving DecidableEq, Repr

/-- The SDK's `ListObjectsPages` as this program drives it: the callback is
run on every delivered page in turn (the flag says whether the page is the last
one), the pagination stops early when the callback answers `false`, and the
call returns the error that ended the listing. A callback that panics
(`none` in place of its answer) does not return, and neither does the call
(`none` in place of the returned error). -/
def ListObjectsPages {σ : Type} (pages : List ListObjectsOutput) (err : Option GoError)
    (fn : ListObjectsOutput → Bool → σ → σ × Option Bool) (st : σ) :
    σ × Option (Option GoError) :=
  match pages with
  | [] => (st, some err)
  | p :: rest =>
    match fn p (rest.isEmpty && err.isNone) st with
    | (st1, none) => (st1, none)
    | (st1, some true) => ListObjectsPages rest err fn st1
    | (st1, some false) => (st1, some none)

/-- The loop of lines 32-34 over the objects of a page: each pass dereferences
`v.Key` and sends the key; on a nil `v.Key` the dereference panics and the loop
is abandoned. The result is the log of operations and whether the loop ran to
its end. -/
def sendContents : List (Option String) → List EnumOp → List EnumOp × Bool
  | [], log => (log, true)
  | some k :: rest, log => sendContents rest (log ++ [EnumOp.send k])
  | none :: _, log => (log ++ [EnumOp.panic], false)

/-- The callback of lines 31-36: sends every key of the page, in order, and
asks for the next page, unless the loop panics. The state threaded through is
the log of operations performed so far. -/
def pageCallback (p : ListObjectsOutput) (_lastPage : Bool) (log : List EnumOp) :
    List EnumOp × Option Bool :=
  let r := sendContents p.Contents log
  (r.1, if r.2 then some true else none)

/-- `listToChannelAndClose` (lines 27-39) as the sequence of operations it
performs: the sends made by the callback, then `reportAWSError(err)`, then
`close(channel)`. When the callback panics nothing follows the panic. -/
def listToChannelAndClose (l : Listing) : List EnumOp :=
  match ListObjectsPages l.pages l.err pageCallback [] with
  | (log, none) => log
  | (log, some err) => log ++ (reportAWSError err).map EnumOp.println ++ [EnumOp.close]

/-! ## The top of `main` (lines 42-86) -/

/-- The fields of `*url.URL` that `main` reads. -/
structure URL where
  Scheme : String
  Host : String
  Path : String
deriving DecidableEq, Repr

/-- The bytes of a Go string (Go strings are byte sequences, UTF-8 encoded). -/
def goBytes (s : String) : List UInt8 := s.data.flatMap String.utf8EncodeChar

/-- Go's slice expression `s[i:]` on the bytes of a string: out of range, hence
a run-time panic (`none`), when `i` exceeds the length. -/
def sliceFrom (s : List UInt8) (i : Nat) : Option (List UInt8) :=
  if i ≤ s.length then some (s.drop i) else none

/-- Everything outside the program that the top of `main` consults. -/
structure Env where
  /-- The command line `os.Args`, program name first. -/
  args : List String
  /-- The function `url.Parse`. -/
  parse : String → Except GoError URL
  /-- The error returned by `NewHTTPClientWithSettings` (`none` for `nil`). -/
  httpClientErr : Option GoError
  /-- Whether `session.Must(session.NewSession(...))` returns (else it panics). -/
  sessionOk : Bool

/-- How the top of `main` ends. -/
inductive Outcome
  /-- The function `main` returned. -/
  | returned
  /-- A run-time panic. -/
  | panicked
  /-- A call of `os.Exit`. -/
  | exited (code : Nat)
  /-- Line 88 is reached with these values of `bucketname` and of the listing
  prefix. -/
  | pipeline (bucketname : String) (pfix : List UInt8)
deriving DecidableEq, Repr

/-- Lines 42-86 of `main`: the lines printed and how the section ends. -/
def mainSetup (env : Env) : List String × Outcome :=
  if env.args.length < 2 then
    (["ERROR, you must specify an S3 path as argument."], Outcome.returned)
  else
    match env.parse (env.args.getD 1 "") with
    | .error _ => ([], Outcome.panicked)
    | .ok uri =>
      if uri.Scheme ≠ "s3" then
        (["Error, expecting an S3 path, i.e., s3://bucket/prefix"], Outcome.returned)
      else
        let bucketname := uri.Host
        match sliceFrom (goBytes uri.Path) 1 with
        | none => ([], Outcome.panicked)
        | some pfix =>
          match env.httpClientErr with
          | some e => (["Got an error creating custom HTTP client: " ++ e.text], Outcome.exited 1)
          | none =>
            if env.sessionOk then ([], Outcome.pipeline bucketname pfix)
            else ([], Outcome.panicked)

/-! ## The pipeline (lines 88-117) as a transition system -/

/-- Capacity of the channel: `make(chan string, 1024)` (line 88). -/
def chanCap : Nat := 1024

/-- The constant `workerCount := 32` (line 43). -/
def workerCount : Nat := 32

/-- Where the goroutine of `main` stands. -/
inductive MainPc
  /-- Before `wg.Add(workerCount)` (line 113). -/
  | add
  /-- At the test of the loop of lines 114-116, with loop counter `i`. -/
  | spawn (i : Nat)
  /-- At `wg.Wait()` (line 117). -/
  | wait
  /-- The function `main` has returned: the process is over. -/
  | returned
deriving DecidableEq, Repr

/-- Where a goroutine running `workerFunc` stands. -/
inductive WorkerPc
  /-- At `for k := range channel` (line 95), about to receive. -/
  | recv
  /-- Holding key `k`, about to call `svc.HeadObject` (line 101). -/
  | call (k : String)
  /-- The lookup has returned `r`; about to run `reportAWSError(err)` (line 102). -/
  | report (k : String) (r : HeadObjectOutput × Option GoError)
  /-- About to run the `if` of lines 103-109 on `res`. -/
  | emit (k : String) (res : HeadObjectOutput)
  /-- The loop is left; the deferred `wg.Done()` (line 93) is about to run. -/
  | deferred
  /-- The goroutine is finished. -/
  | exited
deriving DecidableEq, Repr

/-- The state of the pipeline. The last three fields record what has happened
so far; no statement reads them. -/
structure State where
  /-- Position of the goroutine of `main`. -/
  main : MainPc
  /-- Counter of the `sync.WaitGroup`. -/
  wg : Nat
  /-- The operations `listToChannelAndClose` still has to perform. -/
  enum : List EnumOp
  /-- The buffer of the channel, oldest key first. -/
  buf : List String
  /-- Whether the channel is closed. -/
  closed : Bool
  /-- The goroutines started by line 115, in starting order. -/
  workers : List WorkerPc
  /-- A goroutine has panicked. -/
  crashed : Bool
  /-- Keys received from the channel, in the order of the receive operations. -/
  received : List String
  /-- Keys passed to `svc.HeadObject`, in call order. -/
  lookups : List String
  /-- Lines written to standard output, in order. -/
  stdout : List Printed
deriving DecidableEq, Repr

/-- The goroutine that takes the next step. -/
inductive Action
  | main
  | enumerator
  | worker (i : Nat)
deriving DecidableEq, Repr

/-- The state right after `go listToChannelAndClose(...)` (line 89). -/
def init (l : Listing) : State :=
  { main := MainPc.add, wg := 0, enum := listToChannelAndClose l, buf := [], closed := false,
    workers := [], crashed := false, received := [], lookups := [], stdout := [] }

/-- One statement of `main` (lines 113-117) with worker count `W`. `wg.Wait()`
has no step while the counter is positive. -/
def stepMain (W : Nat) (s : State) : Option State :=
  match s.main with
  | .add => some { s with wg := s.wg + W, main := MainPc.spawn 0 }
  | .spawn i =>
    if i < W then some { s with workers := s.workers ++ [WorkerPc.recv], main := MainPc.spawn (i + 1) }
    else some { s with main := MainPc.wait }
  | .wait => if s.wg = 0 then some { s with main := MainPc.returned } else none
  | .returned => none

/-- One operation of the enumerator. A send has no step while the buffer is
full; a send on, or a close of, a closed channel panics, and so does the
dereference of a nil key. -/
def stepEnum (s : State) : Option State :=
  match s.enum with
  | [] => none
  | .send k :: rest =>
    if s.closed then some { s with enum := rest, crashed := true }
    else if s.buf.length < chanCap then some { s with enum := rest, buf := s.buf ++ [k] }
    else none
  | .println p :: rest => some { s with enum := rest, stdout := s.stdout ++ [p] }
  | .close :: rest =>
    if s.closed then some { s with enum := rest, crashed := true }
    else some { s with enum := rest, closed := true }
  | .panic :: rest => some { s with enum := rest, crashed := true }

/-- One statement of worker `i`. The receive of `range channel` takes the oldest
buffered key, leaves the loop when the channel is closed and drained, and has
no step while the channel is open and empty. `wg.Done()` on a zero counter
panics. -/
def stepWorker (lookup : Lookup) (s : State) (i : Nat) : Option State :=
  match s.workers[i]? with
  | none => none
  | some .recv =>
    match s.buf with
    | k :: rest =>
      some { s with buf := rest, received := s.received ++ [k],
                    workers := s.workers.set i (WorkerPc.call k) }
    | [] =>
      if s.closed then some { s with workers := s.workers.set i WorkerPc.deferred } else none
  | some (.call k) =>
    some { s with lookups := s.lookups ++ [k], workers := s.workers.set i (WorkerPc.report k (lookup k)) }
  | some (.report k r) =>
    some { s with stdout := s.stdout ++ reportAWSError r.2,
                  workers := s.workers.set i (WorkerPc.emit k r.1) }
  | some (.emit k res) =>
    some { s with stdout := s.stdout ++ emitLines k res, workers := s.workers.set i WorkerPc.recv }
  | some .deferred =>
    if s.wg = 0 then some { s with workers := s.workers.set i WorkerPc.exited, crashed := true }
    else some { s with wg := s.wg - 1, workers := s.workers.set i WorkerPc.exited }
  | some .exited => none

/-- One step of the pipeline: the chosen goroutine runs one statement. Nothing
runs once a goroutine has panicked or `main` has returned. -/
def step (W : Nat) (lookup : Lookup) (s : State) (a : Action) : Option State :=
  if s.crashed = true ∨ s.main = MainPc.returned then none
  else
    match a with
    | .main => stepMain W s
    | .enumerator => stepEnum s
    | .worker i => stepWorker lookup s i

/-- Runs a schedule; `none` when it asks a goroutine for a step it cannot take. -/
def exec (W : Nat) (lookup : Lookup) (s : State) : List Action → Option State
  | [] => some s
  | a :: rest => (step W lookup s a).bind (fun t => exec W lookup t rest)

/-- The program `main`: lines 42-86, then, when line 88 is reached, the
pipeline on the listing of the bucket and prefix under the given schedule. The
result is what lines 42-86 printed, how they ended, and the state of the
pipeline (`none` when the pipeline was never entered). -/
def mainProgram (env : Env) (W : Nat) (lookup : Lookup)
    (list : String → List UInt8 → Listing) (sched : List Action) :
    Option (List String × Outcome × Option State) :=
  match mainSetup env with
  | (out, .pipeline b p) => (exec W lookup (init (list b p)) sched).map (fun s => (out, Outcome.pipeline b p, some s))
  | (out, oc) => some (out, oc, none)

/-! ## Bookkeeping used in the statements -/

/-- The keys the enumerator has still to send. -/
def pendingKeys (ops : List EnumOp) : List String :=
  ops.flatMap (fun op => match op with
    | .send k => [k]
    | _ => [])

/-- The lines the enumerator has still to print. -/
def pendingPrints (ops : List EnumOp) : List Printed :=
  ops.flatMap (fun op => match op with
    | .println p => [p]
    | _ => [])

/-- The key a worker has received and not yet looked up. -/
def WorkerPc.held : WorkerPc → List String
  | .call k => [k]
  | _ => []

/-- The lines a worker will still print for the key it is working on. -/
def WorkerPc.owes (lookup : Lookup) : WorkerPc → List Printed
  | .call k => workerBody lookup k
  | .report k r => reportAWSError r.2 ++ emitLines k r.1
  | .emit k res => emitLines k res
  | _ => []

/-- Whether a worker has left its loop. -/
def WorkerPc.gone : WorkerPc → Bool
  | .deferred => true
  | .exited => true
  | _ => false

/-- Keys received by some worker and not yet looked up. -/
def heldKeys (ws : List WorkerPc) : List String := ws.flatMap WorkerPc.held

/-- Lines the workers will still print for the keys they are working on. -/
def owed (lookup : Lookup) (ws : List WorkerPc) : List Printed := ws.flatMap (WorkerPc.owes lookup)

/-- Number of finished workers, that is of `wg.Done()` calls made. -/
def exitedCount (ws : List WorkerPc) : Nat := ws.count WorkerPc.exited

/-- The result lines among printed lines, in order. -/
def resultsOf (ps : List Printed) : List String := ps.filterMap Printed.result?

/-- Steps an enumerator operation stands for: a send is followed by the four
statements a worker runs on the key. -/
def EnumOp.weight : EnumOp → Nat
  | .send _ => 5
  | _ => 1

/-- Statements a worker has still to run on its own account. -/
def WorkerPc.weight : WorkerPc → Nat
  | .recv => 2
  | .call _ => 5
  | .report _ _ => 4
  | .emit _ _ => 3
  | .deferred => 1
  | .exited => 0

/-- Statements `main` has still to run, with those of the workers it has still
to start. -/
def MainPc.weight (W : Nat) : MainPc → Nat
  | .add => 3 * W + 3
  | .spawn i => 3 * (W - i) + 2
  | .wait => 1
  | .returned => 0

/-- A bound on the number of steps the pipeline can still take. -/
def fuel (W : Nat) (s : State) : Nat :=
  s.main.weight W + (s.enum.map EnumOp.weight).sum + 4 * s.buf.length
    + (s.workers.map WorkerPc.weight).sum

/-- The bookkeeping of the wait group, by position of `main`. -/
def GroupOk (W : Nat) (s : State) : Prop :=
  match s.main with
  | .add => s.wg = 0 ∧ s.workers = []
  | .spawn i => i ≤ W ∧ s.workers.length = i ∧ s.wg + exitedCount s.workers = W
  | .wait => s.workers.length = W ∧ s.wg + exitedCount s.workers = W
  | .returned => s.workers.length = W ∧ exitedCount s.workers = W ∧ s.wg = 0

/-- The lines the enumerator prints in a run on listing `l`: the report of the
listing error, unless the enumerator panics before it. -/
def Listing.reports (l : Listing) : List Printed :=
  if l.keyed then reportAWSError l.err else []

/-- The invariant of the pipeline, as long as no goroutine has panicked, for
worker count `W`, lookup `lookup` and listing `l`. -/
structure Inv (W : Nat) (lookup : Lookup) (l : Listing) (s : State) : Prop where
  /-- No goroutine has panicked. -/
  safe : s.crashed = false
  /-- Received, buffered and unsent keys are, in order, the keys the enumerator
  sends. -/
  fifo : s.received ++ s.buf ++ pendingKeys s.enum = l.sentKeys
  /-- The buffer respects the capacity. -/
  cap : s.buf.length ≤ chanCap
  /-- The channel is closed exactly when the enumerator is finished, and until
  then its last operation, which is the one `close` or the one `panic`, is
  ahead. -/
  chan : (s.closed = false ∧ ∃ pre last, s.enum = pre ++ [last]
      ∧ (last = EnumOp.close ∨ last = EnumOp.panic)
      ∧ EnumOp.close ∉ pre ∧ EnumOp.panic ∉ pre)
    ∨ (s.closed = true ∧ s.enum = [])
  /-- A close, done or ahead, means every object carries a key; a panic ahead
  means some object carries none. -/
  keyed : ((s.closed = true ∨ EnumOp.close ∈ s.enum) → l.keyed = true)
    ∧ (EnumOp.panic ∈ s.enum → l.keyed = false)
  /-- The enumerator prints error reports only. -/
  reports : resultsOf (pendingPrints s.enum) = []
  /-- Every received key is looked up or held by a worker. -/
  looked : ∀ x, s.lookups.count x + (heldKeys s.workers).count x = s.received.count x
  /-- Printed and still owed lines are those of the listing error and of the
  received keys. -/
  out : ∀ p, s.stdout.count p + (pendingPrints s.enum).count p + (owed lookup s.workers).count p
    = l.reports.count p + (s.received.flatMap (workerBody lookup)).count p
  /-- A worker leaves its loop only on a closed and drained channel. -/
  gone : ∀ w ∈ s.workers, w.gone = true → s.closed = true ∧ s.buf = []
  /-- Wait-group bookkeeping. -/
  group : GroupOk W s
  /-- With at most one worker the result lines come out in receive order. -/
  single : W ≤ 1 → resultsOf s.stdout ++ resultsOf (owed lookup s.workers)
    = resultsOf (s.received.flatMap (workerBody lookup))

/-- The state of a process that died of the enumerator's panic: some object
carries no key, `main` has not returned, the channel is open, and up to the
panic the state satisfied the invariant. -/
def Dead (W : Nat) (lookup : Lookup) (l : Listing) (s : State) : Prop :=
  s.crashed = true ∧ l.keyed = false ∧ s.closed = false ∧ s.enum = []
    ∧ s.main ≠ MainPc.returned
    ∧ Inv W lookup l { s with crashed := false, enum := [EnumOp.panic] }

/-! ## Concrete inputs used by the worked examples -/

/-- A lookup: `a` has two entries, the lookup of `b` fails and returns the empty
output, `c` has one entry, every other key has an empty record. -/
def demoLookup : Lookup := fun k =>
  if k = "a" then (⟨⟨[("x", "1"), ("y", "2")], [("x", "1"), ("y", "2")]⟩⟩, none)
  else if k = "b" then (⟨⟨[], []⟩⟩, some ⟨true, "NotFound: Not Found"⟩)
  else if k = "c" then (⟨⟨[("z", "3")], [("z", "3")]⟩⟩, none)
  else (⟨⟨[], []⟩⟩, none)

/-- A lookup whose call for `b` returns an error together with an output whose
`Metadata` already holds an entry (the response headers were decoded up to the
one that failed to parse). -/
def leakyLookup : Lookup := fun k =>
  if k = "b" then (⟨⟨[("x", "1")], [("x", "1")]⟩⟩, some ⟨true, "SerializationError: failed to decode REST response"⟩)
  else (⟨⟨[], []⟩⟩, none)

/-- The record `x = 1, y = 2`, entered in that order, which `range` visits
starting with `y`. -/
def swappedRecord : GoMap := ⟨[("x", "1"), ("y", "2")], [("y", "2"), ("x", "1")]⟩

/-- The same record visited in insertion order. -/
def orderedRecord : GoMap := ⟨[("x", "1"), ("y", "2")], [("x", "1"), ("y", "2")]⟩

/-- A listing of two pages, `a b` and `c`, that then fails. -/
def demoListing : Listing :=
  ⟨[⟨[some "a", some "b"]⟩, ⟨[some "c"]⟩], some ⟨false, "RequestError: send request failed"⟩⟩

/-- A complete run with one worker. -/
def demoSchedule1 : List Action :=
  [.main, .main, .main, .enumerator, .worker 0, .worker 0, .worker 0, .worker 0, .enumerator,
   .worker 0, .worker 0, .worker 0, .worker 0, .enumerator, .worker 0, .worker 0, .worker 0,
   .worker 0, .enumerator, .enumerator, .worker 0, .worker 0, .main]

/-- The state `demoSchedule1` ends in. -/
def demoFinal1 : State :=
  { main := MainPc.returned, wg := 0, enum := [], buf := [], closed := true,
    workers := [WorkerPc.exited], crashed := false,
    received := ["a", "b", "c"], lookups := ["a", "b", "c"],
    stdout := [Printed.result "a x=1,y=2", Printed.report "NotFound: Not Found",
               Printed.result "c z=3", Printed.report "RequestError: send request failed"] }

/-- A complete run with two workers taking turns. -/
def demoSchedule2 : List Action :=
  [.enumerator, .main, .main, .enumerator, .enumerator, .worker 0, .main, .worker 1, .enumerator,
   .worker 0, .main, .worker 1, .enumerator, .worker 0, .worker 1, .worker 1, .worker 0,
   .worker 0, .worker 1, .worker 1, .worker 0, .worker 0, .worker 0, .worker 0, .worker 0, .main]

/-- The state `demoSchedule2` ends in. -/
def demoFinal2 : State :=
  { main := MainPc.returned, wg := 0, enum := [], buf := [], closed := true,
    workers := [WorkerPc.exited, WorkerPc.exited], crashed := false,
    received := ["a", "b", "c"], lookups := ["a", "b", "c"],
    stdout := [Printed.report "RequestError: send request failed",
               Printed.report "NotFound: Not Found", Printed.result "a x=1,y=2",
               Printed.result "c z=3"] }

/-- A command line naming `s3://bucket/p`, with the URI `url.Parse` makes of it. -/
def demoEnv : Env :=
  { args := ["s3-list-metadata", "s3://bucket/p"],
    parse := fun _ => Except.ok ⟨"s3", "bucket", "/p"⟩,
    httpClientErr := none, sessionOk := true }

/-- A command line naming a target with another scheme. -/
def httpEnv : Env :=
  { args := ["s3-list-metadata", "http://bucket/p"],
    parse := fun _ => Except.ok ⟨"http", "bucket", "/p"⟩,
    httpClientErr := none, sessionOk := true }

/-- A listing of one page holding one key more than the channel holds. -/
def bigListing : Listing :=
  ⟨[⟨(List.replicate chanCap "k").map some ++ [some "k"]⟩], none⟩

/-- The state after the enumerator has filled the buffer while `main` has not
yet started a worker: the buffer is full, one send and the close are ahead. -/
def fullState : State :=
  { main := MainPc.add, wg := 0, enum := [EnumOp.send "k", EnumOp.close],
    buf := List.replicate chanCap "k", closed := false, workers := [], crashed := false,
    received := [], lookups := [], stdout := [] }

/-- A listing whose second object carries no key. -/
def nilKeyListing : Listing := ⟨[⟨[some "a", none, some "b"]⟩, ⟨[some "c"]⟩], none⟩

/-- One less than the capacity of the channel. -/
def almostCap : Nat := 1023

/-- A listing of one page: one key more than the channel holds, then an object
without a key. -/
def lostListing : Listing :=
  ⟨[⟨(List.replicate chanCap "k").map some ++ [some "k", none]⟩], none⟩

/-- A run on `lostListing` with one worker: the enumerator fills the buffer,
`main` starts the worker and waits, the worker receives one key, the enumerator
sends its last key and then reaches the object without a key. -/
def lostSchedule : List Action :=
  List.replicate chanCap Action.enumerator
    ++ [.main, .main, .main, .worker 0, .enumerator, .enumerator]

/-- The state `lostSchedule` ends in: the process has died with a full buffer. -/
def lostState : State :=
  { main := MainPc.wait, wg := 1, enum := [], buf := List.replicate almostCap "k" ++ ["k"],
    closed := false, workers := [WorkerPc.call "k"], crashed := true,
    received := ["k"], lookups := [], stdout := [] }

/-! ## The enumerator in isolation -/

theorem keysBeforeNil_append (a b : List (Option String)) :
    keysBeforeNil (a ++ b)
      = if a.all Option.isSome then keysBeforeNil a ++ keysBeforeNil b else keysBeforeNil a := by
  induction a with
  | nil => simp [keysBeforeNil]
  | cons o a ih =>
    cases o with
    | none => simp [keysBeforeNil]
    | some k =>
      have hc : keysBeforeNil (some k :: (a ++ b)) = k :: keysBeforeNil (a ++ b) := rfl
      have hd : keysBeforeNil (some k :: a) = k :: keysBeforeNil a := rfl
      rw [List.cons_append, hc, hd, ih]
      simp only [List.all_cons, Option.isSome_some, Bool.true_and]
      split <;> simp

theorem keysBeforeNil_somes (ks : List String) (rest : List (Option String)) :
    keysBeforeNil (ks.map some ++ rest) = ks ++ keysBeforeNil rest := by
  induction ks with
  | nil => simp
  | cons k ks ih => simp [keysBeforeNil, ih]

theorem keysBeforeNil_of_all {objs : List (Option String)} (h : objs.all Option.isSome = true) :
    keysBeforeNil objs = objs.filterMap id := by
  induction objs with
  | nil => rfl
  | cons o objs ih =>
    cases o with
    | none => simp at h
    | some k =>
      simp only [List.all_cons, Option.isSome_some, Bool.true_and] at h
      simp [keysBeforeNil, ih h]

theorem sendContents_eq (objs : List (Option String)) (log : List EnumOp) :
    sendContents objs log
      = if objs.all Option.isSome then (log ++ (keysBeforeNil objs).map EnumOp.send, true)
        else (log ++ (keysBeforeNil objs).map EnumOp.send ++ [EnumOp.panic], false) := by
  induction objs generalizing log with
  | nil => simp [sendContents, keysBeforeNil]
  | cons o objs ih =>
    cases o with
    | none => simp [sendContents, keysBeforeNil]
    | some k =>
      simp only [sendContents, ih, List.all_cons, Option.isSome_some, Bool.true_and,
        keysBeforeNil, List.map_cons]
      split <;> simp

theorem listObjectsPages_callback (pages : List ListObjectsOutput) (err : Option GoError)
    (log : List EnumOp) :
    ListObjectsPages pages err pageCallback log
      = if ((pages.map ListObjectsOutput.Contents).flatten).all Option.isSome
        then (log ++ (keysBeforeNil (pages.map ListObjectsOutput.Contents).flatten).map
                EnumOp.send, some err)
        else (log ++ (keysBeforeNil (pages.map ListObjectsOutput.Contents).flatten).map
                EnumOp.send ++ [EnumOp.panic], none) := by
  induction pages generalizing log with
  | nil => simp [ListObjectsPages, keysBeforeNil]
  | cons p rest ih =>
    simp only [ListObjectsPages, pageCallback, sendContents_eq, List.map_cons,
      List.flatten_cons, keysBeforeNil_append, List.all_append]
    by_cases hp : p.Contents.all Option.isSome = true
    · simp only [hp, if_true, ih, Bool.true_and]
      split <;> simp
    · simp [hp]

theorem listToChannelAndClose_eq (l : Listing) :
    listToChannelAndClose l
      = l.sentKeys.map EnumOp.send
        ++ (if l.keyed then (reportAWSError l.err).map EnumOp.println ++ [EnumOp.close]
            else [EnumOp.panic]) := by
  unfold listToChannelAndClose
  rw [listObjectsPages_callback]
  unfold Listing.sentKeys Listing.keyed Listing.objects
  by_cases h : ((l.pages.map ListObjectsOutput.Contents).flatten).all Option.isSome = true
  · rw [if_pos h, if_pos h]; simp
  · rw [if_neg h, if_neg h]; simp

theorem sentKeys_of_keyed {l : Listing} (h : l.keyed = true) : l.sentKeys = l.keys :=
  keysBeforeNil_of_all h

theorem reports_of_keyed {l : Listing} (h : l.keyed = true) :
    l.reports = reportAWSError l.err := by
  simp [Listing.reports, h]

theorem pendingKeys_sends (ks : List String) : pendingKeys (ks.map EnumOp.send) = ks := by
  induction ks with
  | nil => rfl
  | cons k ks ih => simpa [pendingKeys] using ih

theorem pendingKeys_prints (ps : List Printed) : pendingKeys (ps.map EnumOp.println) = [] := by
  simp [pendingKeys]

theorem pendingPrints_sends (ks : List String) : pendingPrints (ks.map EnumOp.send) = [] := by
  simp [pendingPrints]

theorem pendingPrints_prints (ps : List Printed) : pendingPrints (ps.map EnumOp.println) = ps := by
  induction ps with
  | nil => rfl
  | cons k ks ih => simpa [pendingPrints] using ih

theorem close_not_mem_sends (ks : List String) : EnumOp.close ∉ ks.map EnumOp.send := by
  simp

theorem close_not_mem_prints (ps : List Printed) : EnumOp.close ∉ ps.map EnumOp.println := by
  simp

/-! ## The invariant of the pipeline -/

@[simp] theorem pendingKeys_append (a b : List EnumOp) :
    pendingKeys (a ++ b) = pendingKeys a ++ pendingKeys b := by simp [pendingKeys]
@[simp] theorem pendingPrints_append (a b : List EnumOp) :
    pendingPrints (a ++ b) = pendingPrints a ++ pendingPrints b := by simp [pendingPrints]
@[simp] theorem pendingKeys_nil : pendingKeys [] = [] := rfl
@[simp] theorem pendingPrints_nil : pendingPrints [] = [] := rfl
@[simp] theorem pendingKeys_cons_send (k : String) (ops : List EnumOp) :
    pendingKeys (EnumOp.send k :: ops) = k :: pendingKeys ops := by simp [pendingKeys]
@[simp] theorem pendingKeys_cons_println (p : Printed) (ops : List EnumOp) :
    pendingKeys (EnumOp.println p :: ops) = pendingKeys ops := by simp [pendingKeys]
@[simp] theorem pendingKeys_cons_close (ops : List EnumOp) :
    pendingKeys (EnumOp.close :: ops) = pendingKeys ops := by simp [pendingKeys]
@[simp] theorem pendingPrints_cons_send (k : String) (ops : List EnumOp) :
    pendingPrints (EnumOp.send k :: ops) = pendingPrints ops := by simp [pendingPrints]
@[simp] theorem pendingPrints_cons_println (p : Printed) (ops : List EnumOp) :
    pendingPrints (EnumOp.println p :: ops) = p :: pendingPrints ops := by simp [pendingPrints]
@[simp] theorem pendingPrints_cons_close (ops : List EnumOp) :
    pendingPrints (EnumOp.close :: ops) = pendingPrints ops := by simp [pendingPrints]
@[simp] theorem pendingKeys_cons_panic (ops : List EnumOp) :
    pendingKeys (EnumOp.panic :: ops) = pendingKeys ops := by simp [pendingKeys]
@[simp] theorem pendingPrints_cons_panic (ops : List EnumOp) :
    pendingPrints (EnumOp.panic :: ops) = pendingPrints ops := by simp [pendingPrints]

theorem resultsOf_reportAWSError (err : Option GoError) : resultsOf (reportAWSError err) = [] := by
  cases err with
  | none => rfl
  | some e => by_cases h : e.awsErr <;> simp [reportAWSError, h, resultsOf, Printed.result?]

theorem panic_not_mem_sends (ks : List String) : EnumOp.panic ∉ ks.map EnumOp.send := by
  simp

theorem panic_not_mem_prints (ps : List Printed) : EnumOp.panic ∉ ps.map EnumOp.println := by
  simp

theorem inv_init (W : Nat) (lookup : Lookup) (l : Listing) : Inv W lookup l (init l) := by
  have henum : (init l).enum = listToChannelAndClose l := rfl
  refine ⟨rfl, ?_, ?_, ?_, ?_, ?_, ?_, ?_, ?_, ?_, ?_⟩
  · rw [henum, listToChannelAndClose_eq]
    by_cases hk : l.keyed = true
    · simp [init, hk, pendingKeys_sends, pendingKeys_prints]
    · simp [init, hk, pendingKeys_sends]
  · simp [init]
  · left
    refine ⟨rfl, ?_⟩
    rw [henum, listToChannelAndClose_eq]
    by_cases hk : l.keyed = true
    · refine ⟨l.sentKeys.map EnumOp.send ++ (reportAWSError l.err).map EnumOp.println,
        EnumOp.close, ?_, Or.inl rfl, ?_, ?_⟩
      · simp [hk]
      · simp
      · simp
    · refine ⟨l.sentKeys.map EnumOp.send, EnumOp.panic, ?_, Or.inr rfl, ?_, ?_⟩
      · simp [hk]
      · simp
      · simp
  · rw [henum, listToChannelAndClose_eq]
    by_cases hk : l.keyed = true
    · simp [init, hk]
    · simp [init, hk]
  · rw [henum, listToChannelAndClose_eq]
    by_cases hk : l.keyed = true
    · simp only [hk, if_true, pendingPrints_append, pendingPrints_sends, pendingPrints_prints,
        List.nil_append, pendingPrints_cons_close, pendingPrints_nil, List.append_nil]
      exact resultsOf_reportAWSError l.err
    · simp [hk, pendingPrints_sends]
      rfl
  · intro x; simp [init, heldKeys]
  · intro p
    rw [henum, listToChannelAndClose_eq]
    by_cases hk : l.keyed = true
    · simp [init, hk, owed, pendingPrints_sends, pendingPrints_prints, Listing.reports]
    · simp [init, hk, owed, pendingPrints_sends, Listing.reports]
  · intro w hw; simp [init] at hw
  · simp [GroupOk, init]
  · intro _; simp [init, owed, resultsOf]

theorem getElem?_split {α : Type} {ws : List α} {i : Nat} {w : α} (h : ws[i]? = some w) :
    ∃ A B, ws = A ++ w :: B ∧ A.length = i ∧ ∀ v, ws.set i v = A ++ v :: B := by
  obtain ⟨hi, hw⟩ := List.getElem?_eq_some.mp h
  refine ⟨ws.take i, ws.drop (i + 1), ?_, ?_, ?_⟩
  · rw [← hw, List.getElem_cons_drop, List.take_append_drop]
  · simp [List.length_take]; omega
  · intro v
    rw [List.set_eq_take_append_cons_drop, if_pos hi]

@[simp] theorem heldKeys_append (a b : List WorkerPc) :
    heldKeys (a ++ b) = heldKeys a ++ heldKeys b := by simp [heldKeys]
@[simp] theorem heldKeys_cons (w : WorkerPc) (b : List WorkerPc) :
    heldKeys (w :: b) = w.held ++ heldKeys b := by simp [heldKeys]
@[simp] theorem heldKeys_nil : heldKeys [] = [] := rfl
@[simp] theorem owed_append (lookup : Lookup) (a b : List WorkerPc) :
    owed lookup (a ++ b) = owed lookup a ++ owed lookup b := by simp [owed]
@[simp] theorem owed_cons (lookup : Lookup) (w : WorkerPc) (b : List WorkerPc) :
    owed lookup (w :: b) = w.owes lookup ++ owed lookup b := by simp [owed]
@[simp] theorem owed_nil (lookup : Lookup) : owed lookup [] = [] := rfl
@[simp] theorem resultsOf_append (a b : List Printed) :
    resultsOf (a ++ b) = resultsOf a ++ resultsOf b := by simp [resultsOf]
@[simp] theorem resultsOf_nil : resultsOf [] = [] := rfl
@[simp] theorem exitedCount_append (a b : List WorkerPc) :
    exitedCount (a ++ b) = exitedCount a + exitedCount b := by simp [exitedCount]
@[simp] theorem exitedCount_nil : exitedCount [] = 0 := rfl

theorem inv_stepMain {W : Nat} {lookup : Lookup} {l : Listing} {s t : State}
    (h : Inv W lookup l s) (hs : stepMain W s = some t) : Inv W lookup l t := by
  obtain ⟨h1, h2, h3, h4, hk, hr, h5, h6, h7, h8, h9⟩ := h
  rcases s with ⟨main, wg, enum, buf, closed, workers, crashed, received, lookups, stdout⟩
  simp only [stepMain] at hs
  dsimp only at h1 h2 h3 h4 hk hr h5 h6 h7 h9
  cases main with
  | add =>
    simp only [Option.some.injEq] at hs
    subst hs
    dsimp only [GroupOk] at h8
    exact ⟨h1, h2, h3, h4, hk, hr, h5, h6, h7, by simp [GroupOk]; simp_all [exitedCount], h9⟩
  | spawn i =>
    dsimp only [GroupOk] at h8
    by_cases hi : i < W
    · simp only [hi, if_true, Option.some.injEq] at hs
      subst hs
      refine ⟨h1, h2, h3, h4, hk, hr, ?_, ?_, ?_, ?_, ?_⟩
      · intro x; simpa [WorkerPc.held] using h5 x
      · intro p; simpa [WorkerPc.owes] using h6 p
      · intro w hw hg
        simp only [List.mem_append, List.mem_singleton] at hw
        rcases hw with hw | hw
        · exact h7 w hw hg
        · subst hw; simp [WorkerPc.gone] at hg
      · simp only [GroupOk]
        simp [exitedCount] at h8 ⊢
        omega
      · intro hW; simpa [WorkerPc.owes] using h9 hW
    · simp only [hi, if_false, Option.some.injEq] at hs
      subst hs
      refine ⟨h1, h2, h3, h4, hk, hr, h5, h6, h7, ?_, h9⟩
      simp only [GroupOk]
      omega
  | wait =>
    dsimp only [GroupOk] at h8
    by_cases hw : wg = 0
    · simp only [hw, if_true, Option.some.injEq] at hs
      subst hs
      refine ⟨h1, h2, h3, h4, hk, hr, h5, h6, h7, ?_, h9⟩
      simp only [GroupOk, and_true]
      omega
    · simp [hw] at hs
  | returned => simp at hs


theorem groupOk_congr {W : Nat} {s t : State} (hm : t.main = s.main) (hg : t.wg = s.wg)
    (hw : t.workers = s.workers) (h : GroupOk W s) : GroupOk W t := by
  unfold GroupOk at *
  rw [hm, hg, hw]
  exact h

theorem inv_stepEnum {W : Nat} {lookup : Lookup} {l : Listing} {s t : State}
    (h : Inv W lookup l s) (hne : s.main ≠ MainPc.returned) (hs : stepEnum s = some t) :
    Inv W lookup l t ∨ Dead W lookup l t := by
  have hfull := h
  obtain ⟨h1, h2, h3, h4, hk, hr, h5, h6, h7, h8, h9⟩ := h
  rcases s with ⟨main, wg, enum, buf, closed, workers, crashed, received, lookups, stdout⟩
  simp only [stepEnum] at hs
  dsimp only at h1 h2 h3 h4 hk hr h5 h6 h7 h9 hne
  cases enum with
  | nil => simp at hs
  | cons op rest =>
    rcases h4 with ⟨hc, pre, last, hpre, hlast, hnot, hnotp⟩ | ⟨_, hnil⟩
    swap
    · simp at hnil
    subst hc
    have hgone : ∀ w ∈ workers, w.gone = true → False := by
      intro w hw hg
      have := (h7 w hw hg).1
      simp at this
    have hkrest : ((false = true ∨ EnumOp.close ∈ rest) → l.keyed = true)
        ∧ (EnumOp.panic ∈ rest → l.keyed = false) :=
      ⟨fun hm => hk.1 (hm.elim (fun hf => by simp at hf) (fun hm => Or.inr (List.mem_cons_of_mem _ hm))),
        fun hm => hk.2 (List.mem_cons_of_mem _ hm)⟩
    cases op with
    | send k =>
      cases pre with
      | nil =>
        simp only [List.nil_append, List.cons.injEq] at hpre
        rcases hlast with hl | hl <;> (rw [hl] at hpre; simp at hpre)
      | cons o pre2 =>
        simp only [List.cons_append, List.cons.injEq] at hpre
        obtain ⟨ho, hrest⟩ := hpre
        subst ho
        by_cases hlen : buf.length < chanCap
        · simp [hlen] at hs
          subst hs
          left
          refine ⟨h1, ?_, ?_, ?_, hkrest, ?_, h5, ?_, ?_, ?_, h9⟩
          · simpa using h2
          · simp; omega
          · left
            exact ⟨rfl, pre2, last, hrest, hlast,
              fun hm => hnot (List.mem_cons_of_mem _ hm),
              fun hm => hnotp (List.mem_cons_of_mem _ hm)⟩
          · simpa using hr
          · intro p; simpa using h6 p
          · intro w hw hg; exact (hgone w hw hg).elim
          · exact groupOk_congr rfl rfl rfl h8
        · simp [hlen] at hs
    | println p =>
      cases pre with
      | nil =>
        simp only [List.nil_append, List.cons.injEq] at hpre
        rcases hlast with hl | hl <;> (rw [hl] at hpre; simp at hpre)
      | cons o pre2 =>
        simp only [List.cons_append, List.cons.injEq] at hpre
        obtain ⟨ho, hrest⟩ := hpre
        subst ho
        simp at hs
        subst hs
        have hp : resultsOf [p] = [] ∧ resultsOf (pendingPrints rest) = [] := by
          cases p with
          | report x => exact ⟨rfl, by simpa [resultsOf, Printed.result?] using hr⟩
          | result x => simp [resultsOf, Printed.result?] at hr
        left
        refine ⟨h1, ?_, h3, ?_, hkrest, hp.2, h5, ?_, ?_, ?_, ?_⟩
        · simpa using h2
        · left
          exact ⟨rfl, pre2, last, hrest, hlast,
            fun hm => hnot (List.mem_cons_of_mem _ hm),
            fun hm => hnotp (List.mem_cons_of_mem _ hm)⟩
        · intro q
          have := h6 q
          simp only [pendingPrints_cons_println, List.count_append, List.count_cons,
            List.count_nil] at this ⊢
          omega
        · intro w hw hg; exact (hgone w hw hg).elim
        · exact groupOk_congr rfl rfl rfl h8
        · intro hW
          have := h9 hW
          simp only [resultsOf_append, hp.1, List.append_nil]
          exact this
    | close =>
      cases pre with
      | cons o pre2 =>
        simp only [List.cons_append, List.cons.injEq] at hpre
        exact (hnot (by simp [hpre.1])).elim
      | nil =>
        simp only [List.nil_append, List.cons.injEq] at hpre
        obtain ⟨-, hrest⟩ := hpre
        subst hrest
        simp at hs
        subst hs
        left
        refine ⟨h1, ?_, h3, ?_, ?_, rfl, h5, ?_, ?_, ?_, h9⟩
        · simpa using h2
        · right; exact ⟨rfl, rfl⟩
        · exact ⟨fun _ => hk.1 (Or.inr (by simp)), fun hm => by simp at hm⟩
        · intro q; simpa using h6 q
        · intro w hw hg; exact (hgone w hw hg).elim
        · exact groupOk_congr rfl rfl rfl h8
    | panic =>
      cases pre with
      | cons o pre2 =>
        simp only [List.cons_append, List.cons.injEq] at hpre
        exact (hnotp (by simp [hpre.1])).elim
      | nil =>
        simp only [List.nil_append, List.cons.injEq] at hpre
        obtain ⟨-, hrest⟩ := hpre
        subst hrest
        simp at hs
        subst hs
        subst h1
        right
        exact ⟨rfl, hk.2 (by simp), rfl, rfl, hne, hfull⟩

theorem groupOk_length_le {W : Nat} {s : State} (h : GroupOk W s) : s.workers.length ≤ W := by
  unfold GroupOk at h
  split at h
  · simp [h.2]
  · omega
  · omega
  · omega

theorem exitedCount_le (ws : List WorkerPc) : exitedCount ws ≤ ws.length := List.count_le_length _ _

theorem groupOk_worker {W : Nat} {s t : State} (h : GroupOk W s) (hm : t.main = s.main)
    (hne : s.main ≠ MainPc.returned) (hl : t.workers.length = s.workers.length)
    (hsum : t.wg + exitedCount t.workers = s.wg + exitedCount s.workers)
    (hpos : 0 < s.workers.length) : GroupOk W t := by
  unfold GroupOk at *
  rw [hm]
  cases hmain : s.main with
  | add => rw [hmain] at h; simp [h.2] at hpos
  | spawn i => rw [hmain] at h; dsimp only at h ⊢; omega
  | wait => rw [hmain] at h; dsimp only at h ⊢; omega
  | returned => exact (hne hmain).elim

theorem wg_pos_of_deferred {W : Nat} {s : State} (h : GroupOk W s)
    (hne : s.main ≠ MainPc.returned) {A B : List WorkerPc}
    (hw : s.workers = A ++ WorkerPc.deferred :: B) : 0 < s.wg := by
  have hA := exitedCount_le A
  have hB := exitedCount_le B
  have hc : exitedCount s.workers = exitedCount A + exitedCount B := by
    rw [hw]; simp [exitedCount, List.count_cons]
  have hlen : s.workers.length = A.length + B.length + 1 := by
    rw [hw]; simp; omega
  unfold GroupOk at h
  split at h
  · simp [h.2] at hlen
  · omega
  · omega
  · rename_i heq; exact (hne heq).elim


theorem single_split {W : Nat} {s : State} (h : GroupOk W s) (hW : W ≤ 1) {A B : List WorkerPc}
    {w : WorkerPc} (hw : s.workers = A ++ w :: B) : A = [] ∧ B = [] := by
  have := groupOk_length_le h
  rw [hw] at this
  simp at this
  constructor
  · apply List.eq_nil_of_length_eq_zero; omega
  · apply List.eq_nil_of_length_eq_zero; omega

theorem inv_stepWorker {W : Nat} {lookup : Lookup} {l : Listing} {s t : State} {i : Nat}
    (h : Inv W lookup l s) (hne : s.main ≠ MainPc.returned)
    (hs : stepWorker lookup s i = some t) : Inv W lookup l t := by
  obtain ⟨h1, h2, h3, h4, hk, hr, h5, h6, h7, h8, h9⟩ := h
  rcases s with ⟨main, wg, enum, buf, closed, workers, crashed, received, lookups, stdout⟩
  unfold stepWorker at hs
  dsimp only at h1 h2 h3 h4 hk hr h5 h6 h7 h9 hs hne
  cases hwi : workers[i]? with
  | none => simp [hwi] at hs
  | some w =>
    obtain ⟨A, B, hAB, -, hset⟩ := getElem?_split hwi
    simp only [hwi, hset] at hs
    subst hAB
    have hpos : 0 < (A ++ w :: B).length := by simp
    cases w with
    | recv =>
      dsimp only at hs
      cases buf with
      | nil =>
        dsimp only at hs
        cases closed with
        | false => simp at hs
        | true =>
          simp only [if_true, Option.some.injEq] at hs
          subst hs
          refine ⟨h1, h2, h3, h4, hk, hr, ?_, ?_, ?_, ?_, ?_⟩
          · intro x; simpa [WorkerPc.held] using h5 x
          · intro p; simpa [WorkerPc.owes] using h6 p
          · intro v hv hg
            exact ⟨rfl, rfl⟩
          · exact groupOk_worker h8 rfl hne (by simp) (by simp [exitedCount, List.count_cons]) hpos
          · intro hW; simpa [WorkerPc.owes] using h9 hW
      | cons k rest =>
        simp only [Option.some.injEq] at hs
        subst hs
        refine ⟨h1, ?_, ?_, h4, hk, hr, ?_, ?_, ?_, ?_, ?_⟩
        · simpa using h2
        · simp at h3 ⊢; omega
        · intro x
          have := h5 x
          simp only [heldKeys_append, heldKeys_cons, WorkerPc.held, List.count_append,
            List.count_nil] at this ⊢
          omega
        · intro p
          have := h6 p
          simp only [owed_append, owed_cons, WorkerPc.owes, List.count_append, List.count_nil,
            List.flatMap_append, List.flatMap_cons, List.flatMap_nil, List.append_nil] at this ⊢
          omega
        · intro v hv hg
          simp only [List.mem_append, List.mem_cons] at hv
          have hold : ∀ u ∈ A ++ WorkerPc.recv :: B, u.gone = true → False := by
            intro u hu hgu
            have := (h7 u hu hgu).2
            simp at this
          rcases hv with hv | hv | hv
          · exact (hold v (by simp [hv]) hg).elim
          · subst hv; simp [WorkerPc.gone] at hg
          · exact (hold v (by simp [hv]) hg).elim
        · exact groupOk_worker h8 rfl hne (by simp) (by simp [exitedCount, List.count_cons]) hpos
        · intro hW
          obtain ⟨hA, hB⟩ := single_split h8 hW rfl
          subst hA; subst hB
          have := h9 hW
          simp only [List.nil_append, owed_cons, owed_nil, WorkerPc.owes, resultsOf_append,
            resultsOf_nil, List.append_nil, List.flatMap_append, List.flatMap_cons,
            List.flatMap_nil] at this ⊢
          rw [this]
    | call k =>
      simp only [Option.some.injEq] at hs
      subst hs
      refine ⟨h1, h2, h3, h4, hk, hr, ?_, ?_, ?_, ?_, ?_⟩
      · intro x
        have := h5 x
        simp only [heldKeys_append, heldKeys_cons, WorkerPc.held, List.count_append,
          List.count_nil] at this ⊢
        omega
      · intro p
        have := h6 p
        simp only [owed_append, owed_cons, WorkerPc.owes, workerBody, List.count_append] at this ⊢
        omega
      · intro v hv hg
        simp only [List.mem_append, List.mem_cons] at hv
        rcases hv with hv | hv | hv
        · exact h7 v (by simp [hv]) hg
        · subst hv; simp [WorkerPc.gone] at hg
        · exact h7 v (by simp [hv]) hg
      · exact groupOk_worker h8 rfl hne (by simp) (by simp [exitedCount, List.count_cons]) hpos
      · intro hW
        have := h9 hW
        simpa only [owed_append, owed_cons, WorkerPc.owes, workerBody] using this
    | report k r =>
      simp only [Option.some.injEq] at hs
      subst hs
      refine ⟨h1, h2, h3, h4, hk, hr, ?_, ?_, ?_, ?_, ?_⟩
      · intro x; simpa [WorkerPc.held] using h5 x
      · intro p
        have := h6 p
        simp only [owed_append, owed_cons, WorkerPc.owes, List.count_append] at this ⊢
        omega
      · intro v hv hg
        simp only [List.mem_append, List.mem_cons] at hv
        rcases hv with hv | hv | hv
        · exact h7 v (by simp [hv]) hg
        · subst hv; simp [WorkerPc.gone] at hg
        · exact h7 v (by simp [hv]) hg
      · exact groupOk_worker h8 rfl hne (by simp) (by simp [exitedCount, List.count_cons]) hpos
      · intro hW
        have := h9 hW
        simp only [owed_append, owed_cons, WorkerPc.owes, resultsOf_append,
          resultsOf_reportAWSError, List.nil_append, List.append_nil] at this ⊢
        exact this
    | emit k res =>
      simp only [Option.some.injEq] at hs
      subst hs
      refine ⟨h1, h2, h3, h4, hk, hr, ?_, ?_, ?_, ?_, ?_⟩
      · intro x; simpa [WorkerPc.held] using h5 x
      · intro p
        have := h6 p
        simp only [owed_append, owed_cons, WorkerPc.owes, List.count_append, List.count_nil] at this ⊢
        omega
      · intro v hv hg
        simp only [List.mem_append, List.mem_cons] at hv
        rcases hv with hv | hv | hv
        · exact h7 v (by simp [hv]) hg
        · subst hv; simp [WorkerPc.gone] at hg
        · exact h7 v (by simp [hv]) hg
      · exact groupOk_worker h8 rfl hne (by simp) (by simp [exitedCount, List.count_cons]) hpos
      · intro hW
        obtain ⟨hA, hB⟩ := single_split h8 hW rfl
        subst hA; subst hB
        have := h9 hW
        simp only [List.nil_append, owed_cons, owed_nil, WorkerPc.owes, resultsOf_append,
          resultsOf_nil, List.append_nil] at this ⊢
        exact this
    | deferred =>
      have hwg : 0 < wg := wg_pos_of_deferred h8 hne rfl
      have hwg0 : wg ≠ 0 := by omega
      simp only [hwg0, if_false, Option.some.injEq] at hs
      subst hs
      have hcl := h7 WorkerPc.deferred (by simp) rfl
      refine ⟨h1, h2, h3, h4, hk, hr, ?_, ?_, ?_, ?_, ?_⟩
      · intro x; simpa [WorkerPc.held] using h5 x
      · intro p; simpa [WorkerPc.owes] using h6 p
      · intro v hv hg
        exact hcl
      · refine groupOk_worker h8 rfl hne (by simp) ?_ hpos
        simp [exitedCount, List.count_cons]
        omega
      · intro hW; simpa [WorkerPc.owes] using h9 hW
    | exited => simp at hs


/-- The states of a run: the invariant holds, or the process has died of the
enumerator's panic. -/
theorem inv_step {W : Nat} {lookup : Lookup} {l : Listing} {s t : State} {a : Action}
    (h : Inv W lookup l s ∨ Dead W lookup l s) (hs : step W lookup s a = some t) :
    Inv W lookup l t ∨ Dead W lookup l t := by
  unfold step at hs
  split at hs
  · simp at hs
  · rename_i hg
    have hne : s.main ≠ MainPc.returned := fun hm => hg (Or.inr hm)
    rcases h with h | h
    · cases a with
      | main => exact Or.inl (inv_stepMain h hs)
      | enumerator => exact inv_stepEnum h hne hs
      | worker i => exact Or.inl (inv_stepWorker h hne hs)
    · exact (hg (Or.inl h.1)).elim

theorem inv_exec {W : Nat} {lookup : Lookup} {l : Listing} {sched : List Action} {s t : State}
    (h : Inv W lookup l s ∨ Dead W lookup l s) (hs : exec W lookup s sched = some t) :
    Inv W lookup l t ∨ Dead W lookup l t := by
  induction sched generalizing s with
  | nil => simp only [exec, Option.some.injEq] at hs; exact hs ▸ h
  | cons a rest ih =>
    simp only [exec] at hs
    cases hst : step W lookup s a with
    | none => simp [hst] at hs
    | some u =>
      rw [hst] at hs
      exact ih (inv_step h hst) hs

theorem inv_reach {W : Nat} {lookup : Lookup} {l : Listing} {sched : List Action} {s : State}
    (hs : exec W lookup (init l) sched = some s) : Inv W lookup l s ∨ Dead W lookup l s :=
  inv_exec (Or.inl (inv_init W lookup l)) hs

/-- A run that has not died satisfies the invariant. -/
theorem inv_of_live {W : Nat} {lookup : Lookup} {l : Listing} {s : State}
    (h : Inv W lookup l s ∨ Dead W lookup l s) (hc : s.crashed = false) : Inv W lookup l s := by
  rcases h with h | h
  · exact h
  · rw [h.1] at hc; simp at hc

/-- A run whose `main` has returned satisfies the invariant. -/
theorem inv_of_returned {W : Nat} {lookup : Lookup} {l : Listing} {s : State}
    (h : Inv W lookup l s ∨ Dead W lookup l s) (hm : s.main = MainPc.returned) :
    Inv W lookup l s := by
  rcases h with h | h
  · exact h
  · exact (h.2.2.2.2.1 hm).elim

/-- On a listing whose objects all carry a key no run dies. -/
theorem inv_of_keyed {W : Nat} {lookup : Lookup} {l : Listing} {s : State}
    (h : Inv W lookup l s ∨ Dead W lookup l s) (hk : l.keyed = true) : Inv W lookup l s := by
  rcases h with h | h
  · exact h
  · rw [h.2.1] at hk; simp at hk

theorem fuel_stepMain {W : Nat} {s t : State} (hs : stepMain W s = some t) :
    fuel W t < fuel W s := by
  rcases s with ⟨main, wg, enum, buf, closed, workers, crashed, received, lookups, stdout⟩
  simp only [stepMain] at hs
  cases main with
  | add => simp at hs; subst hs; simp [fuel, MainPc.weight]
  | spawn i =>
    by_cases hi : i < W
    · simp [hi] at hs; subst hs
      simp [fuel, MainPc.weight, WorkerPc.weight]; omega
    · simp [hi] at hs; subst hs
      simp [fuel, MainPc.weight]
  | wait =>
    by_cases hw : wg = 0
    · simp [hw] at hs; subst hs; simp [fuel, MainPc.weight]
    · simp [hw] at hs
  | returned => simp at hs

theorem fuel_stepEnum {W : Nat} {s t : State} (hs : stepEnum s = some t) :
    fuel W t < fuel W s := by
  rcases s with ⟨main, wg, enum, buf, closed, workers, crashed, received, lookups, stdout⟩
  simp only [stepEnum] at hs
  cases enum with
  | nil => simp at hs
  | cons op rest =>
    cases op with
    | send k =>
      dsimp only at hs
      split at hs
      · simp at hs; subst hs; simp [fuel, EnumOp.weight]
      · split at hs
        · simp at hs; subst hs; simp [fuel, EnumOp.weight]; omega
        · simp at hs
    | println p => simp at hs; subst hs; simp [fuel, EnumOp.weight]
    | close =>
      dsimp only at hs
      split at hs <;> (simp at hs; subst hs; simp [fuel, EnumOp.weight])
    | panic => simp at hs; subst hs; simp [fuel, EnumOp.weight]

theorem fuel_stepWorker {W : Nat} {lookup : Lookup} {s t : State} {i : Nat}
    (hs : stepWorker lookup s i = some t) : fuel W t < fuel W s := by
  rcases s with ⟨main, wg, enum, buf, closed, workers, crashed, received, lookups, stdout⟩
  unfold stepWorker at hs
  dsimp only at hs
  cases hwi : workers[i]? with
  | none => simp [hwi] at hs
  | some w =>
    obtain ⟨A, B, hAB, -, hset⟩ := getElem?_split hwi
    simp only [hwi, hset] at hs
    subst hAB
    cases w with
    | recv =>
      dsimp only at hs
      cases buf with
      | nil =>
        cases closed with
        | false => simp at hs
        | true => simp at hs; subst hs; simp [fuel, WorkerPc.weight]
      | cons k rest => simp at hs; subst hs; simp [fuel, WorkerPc.weight]; omega
    | call k => simp at hs; subst hs; simp [fuel, WorkerPc.weight]
    | report k r => simp at hs; subst hs; simp [fuel, WorkerPc.weight]
    | emit k res => simp at hs; subst hs; simp [fuel, WorkerPc.weight]
    | deferred =>
      dsimp only at hs
      split at hs <;> (simp at hs; subst hs; simp [fuel, WorkerPc.weight])
    | exited => simp at hs

theorem fuel_step {W : Nat} {lookup : Lookup} {s t : State} {a : Action}
    (hs : step W lookup s a = some t) : fuel W t < fuel W s := by
  unfold step at hs
  split at hs
  · simp at hs
  · cases a with
    | main => exact fuel_stepMain hs
    | enumerator => exact fuel_stepEnum hs
    | worker i => exact fuel_stepWorker hs

theorem fuel_exec {W : Nat} {lookup : Lookup} {sched : List Action} {s t : State}
    (hs : exec W lookup s sched = some t) : sched.length + fuel W t ≤ fuel W s := by
  induction sched generalizing s with
  | nil => simp only [exec, Option.some.injEq] at hs; subst hs; simp
  | cons a rest ih =>
    simp only [exec] at hs
    cases hst : step W lookup s a with
    | none => simp [hst] at hs
    | some u =>
      rw [hst] at hs
      have h1 := ih hs
      have h2 := fuel_step hst
      simp only [List.length_cons]
      omega


theorem exists_not_exited {ws : List WorkerPc} (h : exitedCount ws < ws.length) :
    ∃ (i : Nat) (w : WorkerPc), ws[i]? = some w ∧ w ≠ WorkerPc.exited := by
  by_contra hcon
  push_neg at hcon
  have : exitedCount ws = ws.length := by
    unfold exitedCount
    rw [List.count_eq_length]
    intro b hb
    obtain ⟨i, hi⟩ := List.mem_iff_getElem?.mp hb
    exact (hcon i b hi).symm
  omega

theorem enum_can_step {W : Nat} {lookup : Lookup} {l : Listing} {s : State}
    (h : Inv W lookup l s) (hc : s.closed = false) (hb : s.buf = []) :
    ∃ t, stepEnum s = some t := by
  rcases h.chan with ⟨_, pre, last, hpre, _⟩ | ⟨hc2, _⟩
  · unfold stepEnum
    cases he : s.enum with
    | nil => rw [he] at hpre; simp at hpre
    | cons op rest =>
      cases op with
      | send k => simp [hc, hb, chanCap]
      | println p => simp
      | close => simp [hc]
      | panic => simp
  · rw [hc] at hc2; simp at hc2

theorem progress {W : Nat} {lookup : Lookup} {l : Listing} {s : State}
    (h : Inv W lookup l s) (hne : s.main ≠ MainPc.returned) :
    ∃ a t, step W lookup s a = some t := by
  have hguard : ¬ (s.crashed = true ∨ s.main = MainPc.returned) := by
    simp [h.safe, hne]
  have hM : step W lookup s Action.main = stepMain W s := by
    unfold step; rw [if_neg hguard]
  have hE : step W lookup s Action.enumerator = stepEnum s := by
    unfold step; rw [if_neg hguard]
  have hK : ∀ i, step W lookup s (Action.worker i) = stepWorker lookup s i := by
    intro i; unfold step; rw [if_neg hguard]
  have hg := h.group
  unfold GroupOk at hg
  cases hm : s.main with
  | add => exact ⟨Action.main, by simp [hM, stepMain, hm]⟩
  | spawn i =>
    refine ⟨Action.main, ?_⟩
    by_cases hi : i < W <;> simp [hM, stepMain, hm, hi]
  | returned => exact (hne hm).elim
  | wait =>
    rw [hm] at hg
    dsimp only at hg
    by_cases hw : s.wg = 0
    · exact ⟨Action.main, by simp [hM, stepMain, hm, hw]⟩
    · obtain ⟨i, w, hi, hwne⟩ := @exists_not_exited s.workers (by omega)
      cases w with
      | exited => exact (hwne rfl).elim
      | recv =>
        cases hb : s.buf with
        | cons k rest => exact ⟨Action.worker i, by simp [hK, stepWorker, hi, hb]⟩
        | nil =>
          cases hc : s.closed with
          | true => exact ⟨Action.worker i, by simp [hK, stepWorker, hi, hb, hc]⟩
          | false =>
            obtain ⟨t, ht⟩ := enum_can_step h hc hb
            exact ⟨Action.enumerator, t, by rw [hE, ht]⟩
      | call k => exact ⟨Action.worker i, by simp [hK, stepWorker, hi]⟩
      | report k r => exact ⟨Action.worker i, by simp [hK, stepWorker, hi]⟩
      | emit k res => exact ⟨Action.worker i, by simp [hK, stepWorker, hi]⟩
      | deferred =>
        exact ⟨Action.worker i, by simp [hK, stepWorker, hi, hw]⟩

/-- When `main` has returned every worker is finished. -/
theorem all_exited {W : Nat} {lookup : Lookup} {l : Listing} {s : State}
    (h : Inv W lookup l s) (hm : s.main = MainPc.returned) :
    s.workers.length = W ∧ ∀ w ∈ s.workers, w = WorkerPc.exited := by
  have hg := h.group
  unfold GroupOk at hg
  rw [hm] at hg
  dsimp only at hg
  refine ⟨hg.1, ?_⟩
  intro w hw
  have : exitedCount s.workers = s.workers.length := by omega
  unfold exitedCount at this
  exact ((List.count_eq_length.mp this) w hw).symm

theorem heldKeys_exited {ws : List WorkerPc} (h : ∀ w ∈ ws, w = WorkerPc.exited) :
    heldKeys ws = [] := by
  induction ws with
  | nil => rfl
  | cons w ws ih =>
    have hw := h w (by simp)
    subst hw
    simp [WorkerPc.held, ih (fun v hv => h v (by simp [hv]))]

theorem owed_exited (lookup : Lookup) {ws : List WorkerPc} (h : ∀ w ∈ ws, w = WorkerPc.exited) :
    owed lookup ws = [] := by
  induction ws with
  | nil => rfl
  | cons w ws ih =>
    have hw := h w (by simp)
    subst hw
    simp [WorkerPc.owes, ih (fun v hv => h v (by simp [hv]))]

/-- When `main` has returned with at least one worker, the channel is closed
and drained and the enumerator is finished. -/
theorem drained {W : Nat} {lookup : Lookup} {l : Listing} {s : State}
    (h : Inv W lookup l s) (hW : 1 ≤ W) (hm : s.main = MainPc.returned) :
    s.closed = true ∧ s.buf = [] ∧ s.enum = [] := by
  obtain ⟨hlen, hall⟩ := all_exited h hm
  cases hws : s.workers with
  | nil => rw [hws] at hlen; simp at hlen; omega
  | cons w ws =>
    have hw : w ∈ s.workers := by rw [hws]; simp
    have hex := hall w hw
    have := h.gone w hw (by rw [hex]; rfl)
    refine ⟨this.1, this.2, ?_⟩
    rcases h.chan with ⟨hc, _⟩ | ⟨_, he⟩
    · rw [this.1] at hc; simp at hc
    · exact he

/-- When `main` has returned with at least one worker, every listed object
carries a key. -/
theorem final_keyed {W : Nat} {lookup : Lookup} {l : Listing} {s : State}
    (h : Inv W lookup l s) (hW : 1 ≤ W) (hm : s.main = MainPc.returned) :
    l.keyed = true :=
  h.keyed.1 (Or.inl (drained h hW hm).1)

theorem final_received {W : Nat} {lookup : Lookup} {l : Listing} {s : State}
    (h : Inv W lookup l s) (hW : 1 ≤ W) (hm : s.main = MainPc.returned) :
    s.received = l.keys := by
  obtain ⟨_, hb, he⟩ := drained h hW hm
  have := h.fifo
  rw [hb, he, sentKeys_of_keyed (final_keyed h hW hm)] at this
  simpa using this

theorem final_lookups {W : Nat} {lookup : Lookup} {l : Listing} {s : State}
    (h : Inv W lookup l s) (hW : 1 ≤ W) (hm : s.main = MainPc.returned) :
    s.lookups.Perm l.keys := by
  rw [← final_received h hW hm, List.perm_iff_count]
  intro x
  have := h.looked x
  rw [heldKeys_exited (all_exited h hm).2] at this
  simpa using this

theorem final_stdout {W : Nat} {lookup : Lookup} {l : Listing} {s : State}
    (h : Inv W lookup l s) (hW : 1 ≤ W) (hm : s.main = MainPc.returned) :
    s.stdout.Perm (reportAWSError l.err ++ l.keys.flatMap (workerBody lookup)) := by
  rw [← final_received h hW hm, List.perm_iff_count]
  intro p
  have := h.out p
  rw [owed_exited lookup (all_exited h hm).2, (drained h hW hm).2.2,
    reports_of_keyed (final_keyed h hW hm)] at this
  simpa using this

theorem final_results {lookup : Lookup} {l : Listing} {s : State}
    (h : Inv 1 lookup l s) (hm : s.main = MainPc.returned) :
    resultsOf s.stdout = resultsOf (l.keys.flatMap (workerBody lookup)) := by
  rw [← final_received h (le_refl 1) hm]
  have := h.single (le_refl 1)
  rw [owed_exited lookup (all_exited h hm).2] at this
  simpa using this


/-! ## The worker's loop body -/

theorem metadataValues_eq (m : GoMap) : metadataValues m = m.order.map formatEntry := by
  unfold metadataValues
  have : ∀ (xs : List (String × String)) (acc : List String),
      xs.foldl (fun values kv => values ++ [formatEntry kv]) acc = acc ++ xs.map formatEntry := by
    intro xs
    induction xs with
    | nil => intro acc; simp
    | cons x xs ih => intro acc; simp [ih]
  simpa using this m.order []

theorem reportAWSError_some (e : GoError) : reportAWSError (some e) = [Printed.report e.text] := by
  by_cases h : e.awsErr <;> simp [reportAWSError, h]

theorem resultsOf_workerBody (lookup : Lookup) (k : String) :
    resultsOf (workerBody lookup k)
      = if 0 < (lookup k).1.Metadata.len then [formatLine k (lookup k).1.Metadata] else [] := by
  unfold workerBody
  simp only [resultsOf_append, resultsOf_reportAWSError, List.nil_append, emitLines]
  split <;> simp [resultsOf, Printed.result?]

theorem resultsOf_flatMap_workerBody (lookup : Lookup) (ks : List String) :
    resultsOf (ks.flatMap (workerBody lookup))
      = (ks.filter (fun k => decide (0 < (lookup k).1.Metadata.len))).map
          (fun k => formatLine k (lookup k).1.Metadata) := by
  induction ks with
  | nil => rfl
  | cons k ks ih =>
    simp only [List.flatMap_cons, resultsOf_append, resultsOf_workerBody, ih, List.filter_cons]
    by_cases h : 0 < (lookup k).1.Metadata.len <;> simp [h]

/-! ## The claims -/

theorem reach_cap {W : Nat} {lookup : Lookup} {l : Listing} {s : State}
    (h : Inv W lookup l s ∨ Dead W lookup l s) : s.buf.length ≤ chanCap := by
  rcases h with h | h
  · exact h.cap
  · exact h.2.2.2.2.2.cap

theorem reach_fifo {W : Nat} {lookup : Lookup} {l : Listing} {s : State}
    (h : Inv W lookup l s ∨ Dead W lookup l s) :
    s.received ++ s.buf ++ pendingKeys s.enum = l.sentKeys := by
  rcases h with h | h
  · exact h.fifo
  · have := h.2.2.2.2.2.fifo
    rw [h.2.2.2.1]
    simpa using this

theorem reach_group {W : Nat} {lookup : Lookup} {l : Listing} {s : State}
    (h : Inv W lookup l s ∨ Dead W lookup l s) : GroupOk W s := by
  rcases h with h | h
  · exact h.group
  · exact groupOk_congr rfl rfl rfl h.2.2.2.2.2.group

theorem reach_gone {W : Nat} {lookup : Lookup} {l : Listing} {s : State}
    (h : Inv W lookup l s ∨ Dead W lookup l s) :
    ∀ w ∈ s.workers, w.gone = true → s.closed = true ∧ s.buf = [] := by
  rcases h with h | h
  · exact h.gone
  · exact h.2.2.2.2.2.gone

theorem reach_crashed {W : Nat} {lookup : Lookup} {l : Listing} {s : State}
    (h : Inv W lookup l s ∨ Dead W lookup l s) (hc : s.crashed = true) :
    l.keyed = false ∧ s.closed = false ∧ s.main ≠ MainPc.returned := by
  rcases h with h | h
  · rw [h.safe] at hc; simp at hc
  · exact ⟨h.2.1, h.2.2.1, h.2.2.2.2.1⟩

theorem stuck_returned {W : Nat} {lookup : Lookup} {l : Listing} {s : State}
    (h : Inv W lookup l s) (hstuck : ∀ a, step W lookup s a = none) :
    s.main = MainPc.returned := by
  by_contra hne
  obtain ⟨a, t, hat⟩ := progress h hne
  rw [hstuck a] at hat
  simp at hat

/-- C4, as stated, fails: on a listing whose second object carries no key the
enumerator sends `a` and then panics on the dereference of line 33. The keys
`b` and `c` of the delivered pages are never sent and the channel is never
closed. -/
theorem nil_key_counterexample :
    nilKeyListing.keys = ["a", "b", "c"]
      ∧ listToChannelAndClose nilKeyListing = [EnumOp.send "a", EnumOp.panic]
      ∧ (listToChannelAndClose nilKeyListing).count EnumOp.close = 0 := by
  refine ⟨?_, ?_, ?_⟩ <;> decide

/-- C4, amended. For every sequence of delivered pages whose objects all carry
a key, `listToChannelAndClose` sends exactly the keys of those pages, page after
page and in within-page order, then prints the listing error if there is one
and nothing otherwise, then closes the channel; the close happens once and is
the last operation, so nothing is sent after it. -/
theorem listToChannelAndClose_ops (l : Listing) (hk : l.keyed = true) :
    (l.pages.map ListObjectsOutput.Contents).flatten = l.keys.map some
      ∧ listToChannelAndClose l
        = l.keys.map EnumOp.send
          ++ (match l.err with
              | none => []
              | some e => [EnumOp.println (Printed.report e.text)])
          ++ [EnumOp.close]
      ∧ (listToChannelAndClose l).count EnumOp.close = 1
      ∧ (listToChannelAndClose l).getLast? = some EnumOp.close
      ∧ pendingKeys (listToChannelAndClose l) = l.keys := by
  have hrep : (reportAWSError l.err).map EnumOp.println
      = (match l.err with
          | none => []
          | some e => [EnumOp.println (Printed.report e.text)]) := by
    cases l.err with
    | none => rfl
    | some e => simp [reportAWSError_some]
  have heq : listToChannelAndClose l
      = l.keys.map EnumOp.send ++ (reportAWSError l.err).map EnumOp.println ++ [EnumOp.close] := by
    rw [listToChannelAndClose_eq, sentKeys_of_keyed hk, if_pos hk, List.append_assoc]
  have hobj : ∀ objs : List (Option String), objs.all Option.isSome = true →
      objs = (objs.filterMap id).map some := by
    intro objs
    induction objs with
    | nil => intro _; rfl
    | cons o objs ih =>
      intro h
      cases o with
      | none => simp at h
      | some k =>
        simp only [List.all_cons, Option.isSome_some, Bool.true_and] at h
        have := ih h
        simp only [List.filterMap_cons, id_eq, List.map_cons, List.cons.injEq, true_and]
        exact this
  refine ⟨hobj _ hk, ?_, ?_, ?_, ?_⟩
  · rw [heq, hrep]
  · rw [heq]
    simp only [List.count_append]
    have h1 : List.count EnumOp.close (l.keys.map EnumOp.send) = 0 :=
      List.count_eq_zero.mpr (close_not_mem_sends _)
    have h2 : List.count EnumOp.close ((reportAWSError l.err).map EnumOp.println) = 0 :=
      List.count_eq_zero.mpr (close_not_mem_prints _)
    rw [h1, h2]
    rfl
  · rw [heq]
    exact List.getLast?_concat _
  · rw [heq]
    simp [pendingKeys_sends, pendingKeys_prints]

theorem listToChannelAndClose_ops_witness :
    listToChannelAndClose demoListing
      = [EnumOp.send "a", EnumOp.send "b", EnumOp.send "c",
         EnumOp.println (Printed.report "RequestError: send request failed"), EnumOp.close] :=
  (listToChannelAndClose_ops demoListing (by decide)).2.1.trans (by decide)

/-- C5. When the lookup of a key returns a record with no entry, the worker
prints no result line for the key: all it prints is what `reportAWSError` prints
for the returned error, which is nothing when the lookup succeeded. -/
theorem empty_record_prints_nothing (lookup : Lookup) (k : String)
    (hempty : (lookup k).1.Metadata.len = 0) :
    emitLines k (lookup k).1 = []
      ∧ workerBody lookup k = reportAWSError (lookup k).2
      ∧ resultsOf (workerBody lookup k) = []
      ∧ ((lookup k).2 = none → workerBody lookup k = []) := by
  have h1 : emitLines k (lookup k).1 = [] := by simp [emitLines, hempty]
  have h2 : workerBody lookup k = reportAWSError (lookup k).2 := by
    simp [workerBody, h1]
  refine ⟨h1, h2, ?_, ?_⟩
  · rw [h2]; exact resultsOf_reportAWSError _
  · intro hnone; rw [h2, hnone]; rfl

theorem empty_record_prints_nothing_witness :
    (demoLookup "d").1.Metadata.len = 0 ∧ workerBody demoLookup "d" = [] :=
  ⟨by decide, (empty_record_prints_nothing demoLookup "d" (by decide)).2.2.2 (by decide)⟩

/-- C2, as stated, fails: for the record `x = 1, y = 2` that `range` visits
starting with `y`, the worker prints `mykey y=2,x=1`, not `mykey x=1,y=2`. -/
theorem line_order_counterexample :
    swappedRecord.WF
      ∧ swappedRecord.entries = [("x", "1"), ("y", "2")]
      ∧ workerBody (fun _ => (⟨swappedRecord⟩, none)) "mykey" = [Printed.result "mykey y=2,x=1"]
      ∧ workerBody (fun _ => (⟨swappedRecord⟩, none)) "mykey" ≠ [Printed.result "mykey x=1,y=2"] := by
  refine ⟨?_, rfl, ?_, ?_⟩
  · unfold GoMap.WF; decide
  · decide
  · decide

/-- C2, amended. For a successful lookup that returns a non-empty record the
worker prints exactly one line: the key, one space, and the entries
`metadataKey=metadataValue` joined by commas in the order in which `range`
visits the record, which is a rearrangement of the record's entries. -/
theorem one_line_per_nonempty_record (lookup : Lookup) (k : String)
    (hok : (lookup k).2 = none) (hne : 0 < (lookup k).1.Metadata.len)
    (hwf : (lookup k).1.Metadata.WF) :
    workerBody lookup k
        = [Printed.result (k ++ " " ++ String.intercalate ","
            ((lookup k).1.Metadata.order.map formatEntry))]
      ∧ ((lookup k).1.Metadata.order.map formatEntry).Perm
          ((lookup k).1.Metadata.entries.map formatEntry) := by
  refine ⟨?_, hwf.2.map _⟩
  simp [workerBody, hok, reportAWSError, emitLines, hne, formatLine, metadataValues_eq]

theorem one_line_per_nonempty_record_witness :
    workerBody (fun _ => (⟨orderedRecord⟩, none)) "mykey" = [Printed.result "mykey x=1,y=2"] :=
  (one_line_per_nonempty_record (fun _ => (⟨orderedRecord⟩, none)) "mykey" rfl (by decide)
    (by unfold GoMap.WF; decide)).1


/-- C3, as stated, fails: the lookup of `b` returns an error together with a
record that holds an entry, and the worker, after reporting the error, prints
the result line `b x=1` for the key. -/
theorem failed_lookup_line_counterexample :
    (leakyLookup "b").2
        = some ⟨true, "SerializationError: failed to decode REST response"⟩
      ∧ workerBody leakyLookup "b"
        = [Printed.report "SerializationError: failed to decode REST response",
           Printed.result "b x=1"] := by
  constructor <;> decide

/-- C3, amended. In a run that has returned, with at least one worker, the
lookup was called exactly once per listed key (so never repeated after a
failure), and the printed lines are, up to order, the listing report and the
lines of every listed key, whatever lookups failed. For a key whose lookup
fails these lines are the error report, once, followed by a result line exactly
when the record returned with the error has an entry; with the empty record the
report is all that is printed. After the `if` of lines 103-109 a worker is back
at the receive of line 95, failed lookup or not. -/
theorem lookup_failure_reported_once (W : Nat) (lookup : Lookup) (l : Listing)
    (sched : List Action) (s : State) (hW : 1 ≤ W)
    (hrun : exec W lookup (init l) sched = some s) (hret : s.main = MainPc.returned) :
    s.lookups.Perm l.keys
      ∧ s.stdout.Perm (reportAWSError l.err ++ l.keys.flatMap (workerBody lookup))
      ∧ (∀ k e, (lookup k).2 = some e →
          workerBody lookup k = Printed.report e.text :: emitLines k (lookup k).1
          ∧ ((lookup k).1.Metadata.len = 0 → workerBody lookup k = [Printed.report e.text])
          ∧ (0 < (lookup k).1.Metadata.len →
              workerBody lookup k
                = [Printed.report e.text, Printed.result (formatLine k (lookup k).1.Metadata)]))
      ∧ (∀ (u : State) (i : Nat) (k : String) (res : HeadObjectOutput),
          u.workers[i]? = some (WorkerPc.emit k res) →
          stepWorker lookup u i
            = some { u with stdout := u.stdout ++ emitLines k res,
                            workers := u.workers.set i WorkerPc.recv }) := by
  have hinv := inv_of_returned (inv_reach hrun) hret
  refine ⟨final_lookups hinv hW hret, final_stdout hinv hW hret, ?_, ?_⟩
  · intro k e he
    have hb : workerBody lookup k = Printed.report e.text :: emitLines k (lookup k).1 := by
      simp [workerBody, he, reportAWSError_some]
    refine ⟨hb, ?_, ?_⟩
    · intro h0; rw [hb]; simp [emitLines, h0]
    · intro hp; rw [hb]; simp [emitLines, hp]
  · intro u i k res hu
    simp [stepWorker, hu]

theorem lookup_failure_reported_once_witness :
    demoFinal1.lookups.Perm demoListing.keys
      ∧ workerBody demoLookup "b" = [Printed.report "NotFound: Not Found"] :=
  have h := lookup_failure_reported_once 1 demoLookup demoListing demoSchedule1 demoFinal1
    (by decide) (by decide) (by decide)
  ⟨h.1, (h.2.2.1 "b" ⟨true, "NotFound: Not Found"⟩ (by decide)).2.1 (by decide)⟩

/-- C1. For every listing (ended normally or by an error), every worker count
`W ≥ 1` and every schedule: the run is finite; a run that can take no further
step has returned from `main`, unless the process has died, which happens only
on a listing with an object that carries no key; and once `main` has returned
the keys passed to `svc.HeadObject` are, as a multiset, the keys the listing
produced. -/
theorem every_key_looked_up_once (W : Nat) (lookup : Lookup) (l : Listing)
    (sched : List Action) (s : State) (hW : 1 ≤ W)
    (hrun : exec W lookup (init l) sched = some s) :
    sched.length ≤ fuel W (init l)
      ∧ ((∀ a, step W lookup s a = none) →
          s.main = MainPc.returned ∨ (s.crashed = true ∧ l.keyed = false))
      ∧ (l.keyed = true → (∀ a, step W lookup s a = none) → s.main = MainPc.returned)
      ∧ (s.main = MainPc.returned →
          (s.lookups : Multiset String) = (l.keys : Multiset String)) := by
  have hreach := inv_reach hrun
  refine ⟨?_, ?_, ?_, ?_⟩
  · have := fuel_exec hrun; omega
  · intro hstuck
    cases hc : s.crashed with
    | false => exact Or.inl (stuck_returned (inv_of_live hreach hc) hstuck)
    | true => exact Or.inr ⟨rfl, (reach_crashed hreach hc).1⟩
  · intro hk hstuck
    exact stuck_returned (inv_of_keyed hreach hk) hstuck
  · intro hret
    exact Multiset.coe_eq_coe.mpr (final_lookups (inv_of_returned hreach hret) hW hret)

theorem every_key_looked_up_once_witness :
    (demoFinal2.lookups : Multiset String) = (demoListing.keys : Multiset String) :=
  (every_key_looked_up_once 2 demoLookup demoListing demoSchedule2 demoFinal2
    (by decide) (by decide)).2.2.2 (by decide)

/-- C6. With one worker, for every listing and lookup, the result lines of a
run that has returned are, in order, the lines of the listed keys whose record
has an entry, the keys taken in the order the enumerator sent them. -/
theorem single_worker_output_in_listing_order (lookup : Lookup) (l : Listing)
    (sched : List Action) (s : State)
    (hrun : exec 1 lookup (init l) sched = some s) (hret : s.main = MainPc.returned) :
    resultsOf s.stdout
      = (l.keys.filter (fun k => decide (0 < (lookup k).1.Metadata.len))).map
          (fun k => formatLine k (lookup k).1.Metadata)
      ∧ pendingKeys (init l).enum = l.keys
      ∧ s.received = l.keys := by
  have hinv := inv_of_returned (inv_reach hrun) hret
  refine ⟨?_, ?_, final_received hinv (le_refl 1) hret⟩
  · rw [final_results hinv hret, resultsOf_flatMap_workerBody]
  · rw [show (init l).enum = listToChannelAndClose l from rfl, listToChannelAndClose_eq,
      sentKeys_of_keyed (final_keyed hinv (le_refl 1) hret)]
    simp [final_keyed hinv (le_refl 1) hret, pendingKeys_sends, pendingKeys_prints]

theorem single_worker_output_in_listing_order_witness :
    resultsOf demoFinal1.stdout = ["a x=1,y=2", "c z=3"] :=
  (single_worker_output_in_listing_order demoLookup demoListing demoSchedule1 demoFinal1
    (by decide) (by decide)).1.trans (by decide)


theorem goBytes_cons (c : Char) (cs : List Char) :
    goBytes (String.mk (c :: cs)) = String.utf8EncodeChar c ++ goBytes (String.mk cs) := by
  simp [goBytes]

theorem goBytes_eq_nil (p : String) : goBytes p = [] ↔ p = "" := by
  rcases p with ⟨cs⟩
  cases cs with
  | nil => simp [goBytes]
  | cons c cs =>
    rw [goBytes_cons]
    have hpos : 0 < (String.utf8EncodeChar c).length := by
      rw [String.length_utf8EncodeChar]; exact Char.utf8Size_pos c
    constructor
    · intro h
      have := congrArg List.length h
      rw [List.length_append, List.length_nil] at this
      omega
    · intro h
      have := congrArg String.data h
      simp at this

theorem sliceFrom_one (b : List UInt8) :
    sliceFrom b 1 = if b = [] then none else some (b.drop 1) := by
  cases b with
  | nil => simp [sliceFrom]
  | cons x xs => simp [sliceFrom]

/-- C7. When `os.Args` has fewer than two entries, or the target parses to a URI
whose scheme is not `s3`, `main` prints one error line and returns: under every
schedule the program ends with no pipeline state, so no listing, no lookup and
no worker exists. -/
theorem no_pipeline_without_s3_target (env : Env) (W : Nat) (lookup : Lookup)
    (list : String → List UInt8 → Listing) (sched : List Action)
    (h : env.args.length < 2
      ∨ ∃ uri, env.parse (env.args.getD 1 "") = Except.ok uri ∧ uri.Scheme ≠ "s3") :
    ∃ msg, mainSetup env = ([msg], Outcome.returned)
      ∧ mainProgram env W lookup list sched = some ([msg], Outcome.returned, none) := by
  by_cases hlen : env.args.length < 2
  · refine ⟨"ERROR, you must specify an S3 path as argument.", ?_, ?_⟩
    · simp [mainSetup, hlen]
    · simp [mainProgram, mainSetup, hlen]
  · rcases h with h | ⟨uri, hp, hsch⟩
    · exact (hlen h).elim
    · refine ⟨"Error, expecting an S3 path, i.e., s3://bucket/prefix", ?_, ?_⟩
      · simp only [mainSetup, hlen, if_false, hp, hsch, ne_eq, not_false_eq_true, if_true]
      · simp only [mainProgram, mainSetup, hlen, if_false, hp, hsch, ne_eq, not_false_eq_true,
          if_true]

theorem no_pipeline_without_s3_target_witness :
    mainProgram httpEnv workerCount demoLookup (fun _ _ => demoListing) demoSchedule1
      = some (["Error, expecting an S3 path, i.e., s3://bucket/prefix"], Outcome.returned, none) := by
  obtain ⟨msg, h1, h2⟩ := no_pipeline_without_s3_target httpEnv workerCount demoLookup
    (fun _ _ => demoListing) demoSchedule1
    (Or.inr ⟨⟨"http", "bucket", "/p"⟩, rfl, by decide⟩)
  have h3 : mainSetup httpEnv
      = (["Error, expecting an S3 path, i.e., s3://bucket/prefix"], Outcome.returned) := by
    decide
  rw [h3] at h1
  have hm : msg = "Error, expecting an S3 path, i.e., s3://bucket/prefix" := by
    simpa using h1.symm
  rw [hm] at h2
  exact h2

/-- C10. For a target whose parsed URI has scheme `s3`: the slice `uri.Path[1:]`
is in range exactly when the path is not empty; with an empty path `main` panics
before line 88; whenever line 88 is reached the bucket name is the host of the
URI and the listing prefix is the path without its first byte, which for a path
that starts with a one-byte character such as `/` is the rest of the path. -/
theorem bucket_and_listing_pfix (env : Env) (uri : URL) (hargs : 2 ≤ env.args.length)
    (hparse : env.parse (env.args.getD 1 "") = Except.ok uri) (hscheme : uri.Scheme = "s3") :
    (sliceFrom (goBytes uri.Path) 1 ≠ none ↔ uri.Path ≠ "")
      ∧ (uri.Path ≠ "" → sliceFrom (goBytes uri.Path) 1 = some ((goBytes uri.Path).drop 1))
      ∧ (uri.Path = "" → mainSetup env = ([], Outcome.panicked))
      ∧ (∀ b p, (mainSetup env).2 = Outcome.pipeline b p →
          b = uri.Host ∧ uri.Path ≠ "" ∧ p = (goBytes uri.Path).drop 1)
      ∧ (uri.Path ≠ "" → env.httpClientErr = none → env.sessionOk = true →
          mainSetup env = ([], Outcome.pipeline uri.Host ((goBytes uri.Path).drop 1)))
      ∧ (∀ c cs, uri.Path = String.mk (c :: cs) → c.utf8Size = 1 →
          (goBytes uri.Path).drop 1 = goBytes (String.mk cs)) := by
  have hlen : ¬ env.args.length < 2 := by omega
  have hsetup : mainSetup env =
      match sliceFrom (goBytes uri.Path) 1 with
      | none => ([], Outcome.panicked)
      | some pfix =>
        match env.httpClientErr with
        | some e => (["Got an error creating custom HTTP client: " ++ e.text], Outcome.exited 1)
        | none =>
          if env.sessionOk then ([], Outcome.pipeline uri.Host pfix)
          else ([], Outcome.panicked) := by
    simp only [mainSetup, hlen, if_false, hparse, hscheme, ne_eq, not_true_eq_false]
  have hslice := sliceFrom_one (goBytes uri.Path)
  refine ⟨?_, ?_, ?_, ?_, ?_, ?_⟩
  · rw [hslice, ← not_iff_not]
    simp [goBytes_eq_nil]
  · intro hne
    rw [hslice, if_neg (fun h => hne ((goBytes_eq_nil _).mp h))]
  · intro he
    rw [hsetup, hslice, if_pos ((goBytes_eq_nil _).mpr he)]
  · intro b p hb
    rw [hsetup, hslice] at hb
    by_cases he : goBytes uri.Path = []
    · rw [if_pos he] at hb; simp at hb
    · rw [if_neg he] at hb
      have hne : uri.Path ≠ "" := fun h => he ((goBytes_eq_nil _).mpr h)
      cases hc : env.httpClientErr with
      | some e => rw [hc] at hb; simp at hb
      | none =>
        rw [hc] at hb
        cases hs : env.sessionOk with
        | false => rw [hs] at hb; simp at hb
        | true =>
          rw [hs] at hb
          simp only [if_true, Outcome.pipeline.injEq] at hb
          exact ⟨hb.1.symm, hne, hb.2.symm⟩
  · intro hne hc hs
    rw [hsetup, hslice, if_neg (fun h => hne ((goBytes_eq_nil _).mp h)), hc, hs]
    simp
  · intro c cs hp h1
    rw [hp, goBytes_cons]
    have hl : (String.utf8EncodeChar c).length = 1 := by
      rw [String.length_utf8EncodeChar]; exact h1
    rw [List.drop_append_of_le_length (by omega)]
    have : List.drop 1 (String.utf8EncodeChar c) = [] := by
      apply List.drop_eq_nil_of_le; omega
    rw [this]; rfl

theorem bucket_and_listing_pfix_witness :
    mainSetup demoEnv = ([], Outcome.pipeline "bucket" (goBytes "p")) := by
  have h := bucket_and_listing_pfix demoEnv ⟨"s3", "bucket", "/p"⟩ (by decide) rfl rfl
  have h5 := h.2.2.2.2.1 (by decide) rfl rfl
  have h6 := h.2.2.2.2.2 '/' ['p'] rfl (by decide)
  rw [h6] at h5
  exact h5


/-- C8. In every run: a goroutine panics only on a listing with an object that
carries no key, and never once the channel is closed; at most `W` workers
exist, and from `wg.Wait()` on exactly `W`; once `wg.Add` has run the counter
plus the number of `wg.Done()` calls made is `W`; a worker is past its loop only
when the channel is closed and drained; when `main` has returned the counter is
zero and every one of the `W` workers is finished. The wait cannot block for
ever: as long as the process is alive and `main` has not returned some goroutine
can take a step, and the number of steps of a run is bounded. -/
theorem wait_joins_all_workers (W : Nat) (lookup : Lookup) (l : Listing)
    (sched : List Action) (s : State) (hrun : exec W lookup (init l) sched = some s) :
    (l.keyed = true ∨ s.closed = true → s.crashed = false)
      ∧ s.workers.length ≤ W
      ∧ (s.main ≠ MainPc.add → s.wg + exitedCount s.workers = W)
      ∧ (s.main = MainPc.wait ∨ s.main = MainPc.returned → s.workers.length = W)
      ∧ (∀ w ∈ s.workers, w = WorkerPc.deferred ∨ w = WorkerPc.exited →
          s.closed = true ∧ s.buf = [])
      ∧ (s.main = MainPc.returned →
          s.crashed = false ∧ s.wg = 0 ∧ s.workers.length = W ∧ exitedCount s.workers = W
          ∧ ∀ w ∈ s.workers, w = WorkerPc.exited)
      ∧ (s.crashed = false → s.main ≠ MainPc.returned → ∃ a t, step W lookup s a = some t)
      ∧ sched.length + fuel W s ≤ fuel W (init l) := by
  have hreach := inv_reach hrun
  have hg := reach_group hreach
  refine ⟨?_, groupOk_length_le hg, ?_, ?_, ?_, ?_, ?_, fuel_exec hrun⟩
  · intro h
    cases hc : s.crashed with
    | false => rfl
    | true =>
      have hd := reach_crashed hreach hc
      rcases h with h | h
      · rw [hd.1] at h; simp at h
      · rw [hd.2.1] at h; simp at h
  · intro hne
    unfold GroupOk at hg
    cases hm : s.main with
    | add => exact (hne hm).elim
    | spawn i => rw [hm] at hg; exact hg.2.2
    | wait => rw [hm] at hg; exact hg.2
    | returned => rw [hm] at hg; dsimp only at hg; omega
  · intro hm
    unfold GroupOk at hg
    rcases hm with hm | hm
    · rw [hm] at hg; exact hg.1
    · rw [hm] at hg; exact hg.1
  · intro w hw hgone
    apply reach_gone hreach w hw
    rcases hgone with h | h <;> (rw [h]; rfl)
  · intro hm
    have hinv := inv_of_returned hreach hm
    have hall := all_exited hinv hm
    unfold GroupOk at hg
    rw [hm] at hg
    exact ⟨hinv.safe, hg.2.2, hg.1, hg.2.1, hall.2⟩
  · intro hc
    exact progress (inv_of_live hreach hc)

theorem wait_joins_all_workers_witness :
    demoFinal2.workers.length = 2 ∧ ∀ w ∈ demoFinal2.workers, w = WorkerPc.exited :=
  have h := (wait_joins_all_workers 2 demoLookup demoListing demoSchedule2 demoFinal2
    (by decide)).2.2.2.2.2.1 (by decide)
  ⟨h.2.2.1, h.2.2.2.2⟩

theorem exec_sends (W : Nat) (lookup : Lookup) (ks : List String) (rest : List EnumOp)
    (s : State) (hsafe : s.crashed = false) (hmain : s.main ≠ MainPc.returned)
    (hopen : s.closed = false) (henum : s.enum = ks.map EnumOp.send ++ rest)
    (hroom : s.buf.length + ks.length ≤ chanCap) :
    exec W lookup s (List.replicate ks.length Action.enumerator)
      = some { s with enum := rest, buf := s.buf ++ ks } := by
  induction ks generalizing s with
  | nil =>
    rcases s with ⟨main, wg, enum, buf, closed, workers, crashed, received, lookups, stdout⟩
    simp only [List.map_nil, List.nil_append] at henum
    subst henum
    simp [exec]
  | cons k ks ih =>
    rcases s with ⟨main, wg, enum, buf, closed, workers, crashed, received, lookups, stdout⟩
    dsimp only at hsafe hmain hopen henum hroom
    subst henum hsafe hopen
    have hlt : buf.length < chanCap := by simp at hroom; omega
    have hstep : step W lookup
        { main := main, wg := wg, enum := (k :: ks).map EnumOp.send ++ rest, buf := buf,
          closed := false, workers := workers, crashed := false, received := received,
          lookups := lookups, stdout := stdout } Action.enumerator
        = some { main := main, wg := wg, enum := ks.map EnumOp.send ++ rest, buf := buf ++ [k],
                 closed := false, workers := workers, crashed := false, received := received,
                 lookups := lookups, stdout := stdout } := by
      simp [step, hmain, stepEnum, hlt]
    simp only [List.length_cons, List.replicate_succ, exec, hstep, Option.some_bind]
    rw [ih _ rfl hmain rfl rfl (by simp at hroom ⊢; omega)]
    simp

theorem init_enum (l : Listing) : (init l).enum = listToChannelAndClose l := rfl

theorem exec_append (W : Nat) (lookup : Lookup) (s : State) (a b : List Action) :
    exec W lookup s (a ++ b) = (exec W lookup s a).bind (fun t => exec W lookup t b) := by
  induction a generalizing s with
  | nil => simp [exec]
  | cons x a ih =>
    simp only [List.cons_append, exec]
    cases step W lookup s x with
    | none => rfl
    | some u => simp [ih]

/-- C9, as stated, fails: on a listing of one key more than the channel holds,
followed by an object without a key, the enumerator has sent all its keys when
the dereference of line 33 panics. The process dies with a full buffer: of the
keys pushed only one has reached a worker and no further step is possible. -/
theorem full_buffer_lost_counterexample :
    lostListing.sentKeys = List.replicate chanCap "k" ++ ["k"]
      ∧ exec 1 demoLookup (init lostListing) lostSchedule = some lostState
      ∧ (∀ a, step 1 demoLookup lostState a = none)
      ∧ lostState.main ≠ MainPc.returned
      ∧ lostState.received = ["k"]
      ∧ lostState.buf.length = chanCap := by
  have hsent : lostListing.sentKeys = List.replicate chanCap "k" ++ ["k"] := by
    unfold Listing.sentKeys Listing.objects lostListing
    simp only [List.map_cons, List.map_nil, List.flatten_cons, List.flatten_nil,
      List.append_nil]
    rw [keysBeforeNil_somes]
    rfl
  have hkeyed : lostListing.keyed = false := by
    simp [Listing.keyed, Listing.objects, lostListing]
  have hcap : List.replicate chanCap "k" = "k" :: List.replicate almostCap "k" := by
    rw [show chanCap = almostCap + 1 from rfl, List.replicate_succ]
  have hlt : almostCap < chanCap := by decide
  refine ⟨hsent, ?_, ?_, by simp [lostState], rfl, ?_⟩
  · have h := exec_sends 1 demoLookup (List.replicate chanCap "k")
      [EnumOp.send "k", EnumOp.panic] (init lostListing) rfl (by decide) rfl
      (by
        rw [init_enum, listToChannelAndClose_eq, hsent, hkeyed]
        simp)
      (by simp [init])
    rw [List.length_replicate] at h
    unfold lostSchedule
    rw [exec_append, h, Option.some_bind]
    simp only [init, List.nil_append, hcap]
    simp [exec, step, stepMain, stepEnum, stepWorker, hlt, lostState]
  · intro a
    simp [step, lostState]
  · simp only [lostState, List.length_append, List.length_replicate, List.length_singleton]
    rfl

/-- C9, amended. In every reachable state the channel buffer holds at most
`1024` keys, and the keys received so far, the buffered keys and the keys still
to be sent are, in this order, the keys the enumerator sends: nothing is dropped
or reordered. A send on a full buffer has no step (the enumerator blocks); a
send on a buffer with room appends the key. Every run is finite, and when every
listed object carries a key the enumerator sends all listed keys and, with at
least one worker, a run that can go no further has delivered all of them to
workers, in sending order. -/
theorem queue_bounded_and_lossless (W : Nat) (lookup : Lookup) (l : Listing)
    (sched : List Action) (s : State) (hrun : exec W lookup (init l) sched = some s) :
    chanCap = 1024
      ∧ s.buf.length ≤ chanCap
      ∧ s.received ++ s.buf ++ pendingKeys s.enum = l.sentKeys
      ∧ (∀ k rest, s.enum = EnumOp.send k :: rest → s.buf.length = chanCap →
          step W lookup s Action.enumerator = none)
      ∧ (∀ k rest, s.enum = EnumOp.send k :: rest → s.buf.length < chanCap →
          s.main ≠ MainPc.returned →
          step W lookup s Action.enumerator
            = some { s with enum := rest, buf := s.buf ++ [k] })
      ∧ sched.length + fuel W s ≤ fuel W (init l)
      ∧ (l.keyed = true → l.sentKeys = l.keys)
      ∧ (l.keyed = true → 1 ≤ W → (∀ a, step W lookup s a = none) → s.received = l.keys) := by
  have hreach := inv_reach hrun
  have hlive : ∀ k rest, s.enum = EnumOp.send k :: rest → Inv W lookup l s := by
    intro k rest he
    rcases hreach with h | h
    · exact h
    · rw [h.2.2.2.1] at he; simp at he
  have hopen : ∀ k rest, s.enum = EnumOp.send k :: rest → s.closed = false := by
    intro k rest he
    rcases (hlive k rest he).chan with ⟨hc, _⟩ | ⟨_, hn⟩
    · exact hc
    · rw [he] at hn; simp at hn
  refine ⟨rfl, reach_cap hreach, reach_fifo hreach, ?_, ?_, fuel_exec hrun,
    sentKeys_of_keyed, ?_⟩
  · intro k rest he hfull
    unfold step
    split
    · rfl
    · simp [stepEnum, he, hopen k rest he, hfull]
  · intro k rest he hroom hne
    have hguard : ¬ (s.crashed = true ∨ s.main = MainPc.returned) := by
      simp [(hlive k rest he).safe, hne]
    unfold step
    rw [if_neg hguard]
    simp [stepEnum, he, hopen k rest he, hroom]
  · intro hk hW hstuck
    have hinv := inv_of_keyed hreach hk
    exact final_received hinv hW (stuck_returned hinv hstuck)

theorem queue_bounded_and_lossless_witness :
    fullState.buf.length = chanCap
      ∧ exec workerCount demoLookup (init bigListing) (List.replicate chanCap Action.enumerator)
          = some fullState
      ∧ step workerCount demoLookup fullState Action.enumerator = none :=
  have hsent : bigListing.sentKeys = List.replicate chanCap "k" ++ ["k"] := by
    unfold Listing.sentKeys Listing.objects bigListing
    simp only [List.map_cons, List.map_nil, List.flatten_cons, List.flatten_nil,
      List.append_nil]
    rw [keysBeforeNil_somes]
    rfl
  have hkeyed : bigListing.keyed = true := by
    simp [Listing.keyed, Listing.objects, bigListing]
  have hrun : exec workerCount demoLookup (init bigListing)
      (List.replicate chanCap Action.enumerator) = some fullState := by
    have h := exec_sends workerCount demoLookup (List.replicate chanCap "k")
      [EnumOp.send "k", EnumOp.close] (init bigListing) rfl (by decide) rfl
      (by
        rw [init_enum, listToChannelAndClose_eq, hsent, hkeyed]
        simp [bigListing, reportAWSError])
      (by simp [init])
    rw [List.length_replicate] at h
    rw [h]
    simp [init, fullState]
  ⟨by simp [fullState], hrun,
    (queue_bounded_and_lossless workerCount demoLookup bigListing
      (List.replicate chanCap Action.enumerator) fullState hrun).2.2.2.1 "k" [EnumOp.close] rfl
      (by simp [fullState])⟩

end S3List
